import Mathlib

/-!
# logfs: a log-structured byte store over a block device

Shallow embedding of `src/logfs.c`.

Modelling conventions.

* A region of memory is a total map from addresses to byte values (`Bytes`);
  `memcpy` and `memset` are pointwise updates of such a map.
* The write buffer lives in process memory `mem` and is addressed by absolute
  addresses, exactly like the `uint64_t` pointers `write_queue`, `write_head`,
  `write_tail`, `write_limit` of the source.  The read cache and every scratch
  buffer are regions of their own, addressed from 0 (their base).
* The worker thread is run sequentially: `reader_function` (request a flush and
  wait for it) is one synchronous `logfs_flush` followed by the flag updates
  of `writer_function`.
* Counters and addresses are natural numbers: the model is exact as long as
  no address and no byte count reaches `2 ^ 64` and no difference `end - start`
  of the source is taken with `start > end` (the `uint64_t` of the source wraps
  there, the natural number stops at 0).  The caller-supplied `off` and `len`
  of `logfs_read` are combined with 64-bit wrap-around, as in C.
* Memory is not bounded and the regions are disjoint: a copy that runs past the
  end of the write buffer or of the read cache is a plain copy in the model,
  where the C program overruns the heap.  The model is exact for copies that
  stay inside `write_queue .. write_limit` and for cache refills of at most
  `block_size * 256` bytes; the theorems name these bounds.
-/

namespace LogFS

/-! ## The model of `logfs.c` -/

/-- Number of blocks of the write buffer. -/
def WCACHE_BLOCKS : Nat := 32

/-- Number of blocks of the read cache. -/
def RCACHE_BLOCKS : Nat := 256

/-- Modulus of `uint64_t` arithmetic. -/
def U64 : Nat := 2 ^ 64

/-- A region of memory: address (or offset) to byte value. -/
abbrev Bytes := Nat → Nat

/-- Freshly allocated memory, before it is initialised. -/
def fresh : Bytes := fun _ => 0

/-- The C `memcpy(dst + d, src + s, n)`. -/
def memcpy (dst : Bytes) (d : Nat) (src : Bytes) (s n : Nat) : Bytes :=
  fun a => if d ≤ a ∧ a < d + n then src (s + (a - d)) else dst a

/-- The C `memset(dst + d, c, n)`. -/
def memset (dst : Bytes) (d c n : Nat) : Bytes :=
  fun a => if d ≤ a ∧ a < d + n then c else dst a

/-- Modelled from the spec: the block device of `device.h`, whose code is not
part of the sources.  It has a block size, a byte capacity and contents. -/
structure device where
  block : Nat
  size : Nat
  data : Bytes

/-- Modelled from the spec: `block_size(handle)`, fixed for the lifetime of
the handle. -/
def device_block (dev : device) : Nat := dev.block

/-- Modelled from the spec: `size(handle)`, the device byte capacity. -/
def device_size (dev : device) : Nat := dev.size

/-- Modelled from the spec: `read(handle, buffer, offset, len) -> Status`,
where `offset` and `len` must be multiples of the block size.  A transfer that
meets this contract succeeds and copies `len` device bytes from `off` to
`mem + buf`; one that does not fails with status -1 and copies nothing. -/
def device_read (dev : device) (mem : Bytes) (buf off len : Nat) : Int × Bytes :=
  if off % dev.block = 0 ∧ len % dev.block = 0 then
    (0, memcpy mem buf dev.data off len)
  else (-1, mem)

/-- Modelled from the spec: `write(handle, buffer, offset, len) -> Status`,
where `offset` and `len` must be multiples of the block size.  A transfer that
meets this contract succeeds and copies `len` bytes from `mem + buf` to the
device at `off`; one that does not fails with status -1 and writes nothing. -/
def device_write (dev : device) (mem : Bytes) (buf off len : Nat) : Int × device :=
  if off % dev.block = 0 ∧ len % dev.block = 0 then
    (0, { dev with data := memcpy dev.data off mem buf len })
  else (-1, dev)

/-- The `struct logfs` of the source, without the thread handles, mutexes and
condition variables.  `mem` is the process memory that holds the write buffer
and `read_queue` is the content of the read cache. -/
structure logfs where
  device : device
  mem : Bytes
  write_queue : Nat
  write_head : Nat
  write_tail : Nat
  write_limit : Nat
  read_queue : Bytes
  read_start_addr : Nat
  read_end_addr : Nat
  device_limit : Nat
  write_allow : Nat
  read_allow : Nat
  should_exit : Nat

/-- The field `block_size`: set once in `logfs_open` to
`device_block(fs->device)` and never assigned again. -/
def logfs.block_size (fs : logfs) : Nat := device_block fs.device

/-- The state built by `logfs_open` on an opened device.  `aligned_alloc`
returns a multiple of the block size for the write buffer: `k * block`, with
`k` chosen by the allocator.  Both caches are zeroed. -/
def logfs_open (dev : device) (k : Nat) : logfs :=
  let block_size := device_block dev
  let write_queue := k * block_size
  { device := dev
    mem := memset fresh write_queue 0 (block_size * WCACHE_BLOCKS)
    write_queue := write_queue
    write_head := write_queue
    write_tail := write_queue
    write_limit := write_queue + block_size * WCACHE_BLOCKS
    read_queue := memset fresh 0 0 (block_size * RCACHE_BLOCKS)
    read_start_addr := 0
    read_end_addr := 0
    device_limit := 0
    write_allow := 0
    read_allow := 0
    should_exit := 0 }

/-- Lines 220-228 of `logfs_flush_`: the device after the trailing block has
been read into a scratch block, overlaid from `src + start` and written back. -/
def logfs_flush_merge (fs : logfs) (src : Bytes) (start : Nat) : device :=
  let diff := fs.device_limit % fs.block_size
  let diff_ := fs.block_size - diff
  let temp_mem := memset fresh 0 0 fs.block_size
  let temp_mem := (device_read fs.device temp_mem 0 (fs.device_limit - diff) fs.block_size).2
  let temp_mem := memcpy temp_mem diff src start diff_
  (device_write fs.device temp_mem 0 (fs.device_limit - diff) fs.block_size).2

/-- Lines 250-257 of `logfs_flush_`: the write of the remaining bytes, its
length rounded up to whole blocks.  Exact for `start ≤ end_`: the difference
`end - start` of the source is a `uint64_t`. -/
def logfs_flush_write (fs : logfs) (src : Bytes) (start end_ : Nat) : logfs :=
  let len := end_ - start
  let len_diff := len % fs.block_size
  let len := if len_diff > 0 then len + (fs.block_size - len_diff) else len
  { fs with
    device := (device_write fs.device src start fs.device_limit len).2
    device_limit := fs.device_limit + (end_ - start) }

/-- Lines 239-258 of `logfs_flush_`: the part after the merge of the trailing
block.  `self` stands for the recursive call, made on a zeroed scratch buffer
of the size of the write buffer (its base is address 0 of its own region). -/
def logfs_flush_rest (self : logfs → Bytes → Nat → Nat → Option logfs)
    (fs : logfs) (src : Bytes) (start end_ : Nat) : Option logfs :=
  if start % fs.block_size > 0 then
    let temp_mem := memset fresh 0 0 (fs.block_size * WCACHE_BLOCKS)
    let len := end_ - start
    let temp_mem := memcpy temp_mem 0 src start len
    self fs temp_mem 0 (0 + len)
  else
    some (logfs_flush_write fs src start end_)

/-- The body of `logfs_flush_(fs, start, end)`, reading its source bytes from
the region `src`; `self` stands for the recursive call.  Every `return` of the
source returns 0 and no caller looks at it, so only the state is kept.  Exact
for `start ≤ end_`, as `logfs_flush_write`. -/
def logfs_flush_body (self : logfs → Bytes → Nat → Nat → Option logfs)
    (fs : logfs) (src : Bytes) (start end_ : Nat) : Option logfs :=
  if start = end_ then some fs
  else
    let diff := fs.device_limit % fs.block_size
    if diff > 0 then
      let diff_ := fs.block_size - diff
      let dev := logfs_flush_merge fs src start
      if start + diff_ > end_ then
        some { fs with device := dev, device_limit := fs.device_limit + (end_ - start) }
      else
        logfs_flush_rest self
          { fs with device := dev, device_limit := fs.device_limit + diff_ }
          src (start + diff_) end_
    else
      logfs_flush_rest self fs src start end_

/-- The recursive function `logfs_flush_` with an explicit bound on the depth
of the recursion: `none` when the bound is used up. -/
def logfs_flush_fuel : Nat → logfs → Bytes → Nat → Nat → Option logfs
  | 0 => fun _ _ _ _ => none
  | n + 1 => logfs_flush_body (logfs_flush_fuel n)

/-- The function `logfs_flush_`: depth 2 is always enough (see
`logfs_flush_fuel_enough`). -/
def logfs_flush_ (fs : logfs) (src : Bytes) (start end_ : Nat) : logfs :=
  (logfs_flush_fuel 2 fs src start end_).getD fs

/-- The function `logfs_flush`: status and new state. -/
def logfs_flush (fs : logfs) : Int × logfs :=
  let head_addr := fs.write_head
  if head_addr < fs.write_tail then
    let fs1 := logfs_flush_ fs fs.mem fs.write_tail fs.write_limit
    let fs2 := logfs_flush_ fs1 fs1.mem fs1.write_queue head_addr
    (0, { fs2 with write_tail := head_addr })
  else
    let fs1 := logfs_flush_ fs fs.mem fs.write_tail head_addr
    (0, { fs1 with write_tail := head_addr })

/-- The function `reader_function` run against `writer_function`: the caller
sets `write_allow`, clears `read_allow` and waits; the worker wakes up, runs
`logfs_flush`, clears `write_allow` and sets `read_allow`. -/
def reader_function (fs : logfs) : logfs :=
  let fs := { fs with write_allow := 1, read_allow := 0 }
  let fs := (logfs_flush fs).2
  { fs with write_allow := 0, read_allow := 1 }

/-- Lines 188-203 of `logfs_append`: the copy of the caller's data into the
write buffer, in one piece or split at the end of the buffer, and the new
`write_head`.  Exact for `write_head ≤ write_limit` and a second piece of at
most the size of the buffer: a longer one leaves the buffer. -/
def logfs_append_copy (fs : logfs) (buf : Bytes) (len : Nat) : Int × logfs :=
  if fs.write_head + len ≤ fs.write_limit then
    (0, { fs with
      mem := memcpy fs.mem fs.write_head buf 0 len
      write_head := fs.write_head + len
      write_allow := 1 })
  else
    let free_space := fs.write_limit - fs.write_head
    let mem := memcpy fs.mem fs.write_head buf 0 free_space
    let len := len - free_space
    let mem := memcpy mem fs.write_queue buf free_space len
    (0, { fs with
      mem := mem
      write_head := fs.write_queue + len
      write_allow := 1 })

/-- The function `logfs_append(fs, buf, len)`: status and new state.  The
caller's data is the region `buf`, read from offset 0. -/
def logfs_append (fs : logfs) (buf : Bytes) (len : Nat) : Int × logfs :=
  let free_space :=
    if fs.write_head < fs.write_tail then fs.write_tail - fs.write_head
    else fs.write_limit - fs.write_queue - (fs.write_head - fs.write_tail)
  let fs := if len ≥ free_space then reader_function fs else fs
  logfs_append_copy fs buf len

/-- The cache refill of `logfs_read` (lines 144-158).  Exact for a transfer
of at most `block_size * RCACHE_BLOCKS` bytes, the size of the read cache. -/
def logfs_read_refill (fs : logfs) (off len : Nat) : logfs :=
  let fs := reader_function fs
  let diff := off % fs.block_size
  let read_from_align := off - diff
  let new_len := (len + diff) % U64
  let len_diff := new_len % fs.block_size
  let new_len :=
    if len_diff > 0 then (new_len - len_diff + fs.block_size) % U64 else new_len
  let read_queue := (device_read fs.device fs.read_queue 0 read_from_align new_len).2
  let read_end_addr := (read_from_align + new_len) % U64
  { fs with
    read_queue := read_queue
    read_start_addr := read_from_align
    read_end_addr := if read_end_addr > fs.device_limit then fs.device_limit else read_end_addr }

/-- The function `logfs_read(fs, buf, off, len)`: the status, the new state
and the caller's buffer after the call.  The status is `none` when control
reaches the closing brace of the function without a `return`. -/
def logfs_read (fs : logfs) (buf : Bytes) (off len : Nat) : Option Int × logfs × Bytes :=
  let fs :=
    if (off + len) % U64 > fs.read_end_addr ∨ off < fs.read_start_addr then
      logfs_read_refill fs off len
    else fs
  let file_size := device_size fs.device
  if (len + off) % U64 > file_size then (some (-1), fs, buf)
  else if off ≥ fs.read_start_addr ∧
      len ≤ (fs.read_end_addr + U64 - fs.read_start_addr) % U64 then
    let read_addr := off - fs.read_start_addr
    (some 0, fs, memcpy buf 0 fs.read_queue read_addr len)
  else (none, fs, buf)

/-! ## Runs of the public interface -/

/-- A call of the public interface, as one step of a run. -/
inductive call where
  | append (buf : Bytes) (len : Nat)
  | flush
  | read (buf : Bytes) (off len : Nat)

/-- The state after one call. -/
def step (fs : logfs) : call → logfs
  | .append buf len => (logfs_append fs buf len).2
  | .flush => (logfs_flush fs).2
  | .read buf off len => (logfs_read fs buf off len).2.1

/-- The state after a sequence of calls. -/
def run (fs : logfs) (cs : List call) : logfs := cs.foldl step fs

/-- Total number of bytes passed to `logfs_append` in a sequence of calls. -/
def appended : List call → Nat
  | [] => 0
  | .append _ len :: cs => len + appended cs
  | .flush :: cs => appended cs
  | .read _ _ _ :: cs => appended cs

/-- The bytes a call appends to the log. -/
def call_bytes : call → List Nat
  | .append buf len => (List.range len).map buf
  | .flush => []
  | .read _ _ _ => []

/-- The concatenation of the byte strings appended by a sequence of calls. -/
def log_bytes : List call → List Nat
  | [] => []
  | c :: cs => call_bytes c ++ log_bytes cs

/-! ## The pending region of the write buffer -/

/-- Number of bytes between `write_tail` and `write_head` along the circular
order, as `logfs_flush` walks it. -/
def pending (fs : logfs) : Nat :=
  if fs.write_head < fs.write_tail then
    (fs.write_limit - fs.write_tail) + (fs.write_head - fs.write_queue)
  else fs.write_head - fs.write_tail

/-- The `i`-th byte between `write_tail` and `write_head` along the circular
order. -/
def pending_byte (fs : logfs) (i : Nat) : Nat :=
  if fs.write_head < fs.write_tail then
    if i < fs.write_limit - fs.write_tail then fs.mem (fs.write_tail + i)
    else fs.mem (fs.write_queue + (i - (fs.write_limit - fs.write_tail)))
  else fs.mem (fs.write_tail + i)

/-! ## Postconditions and invariants -/

/-- What a call `logfs_flush_(fs, start, end)` on the source region `src`
establishes about its result `r`: only the device and `device_limit` change,
the bytes below the old `device_limit` stay, the source bytes follow them. -/
structure FlushPost (fs : logfs) (src : Bytes) (start end_ : Nat) (r : logfs) : Prop where
  frame : r = { fs with device := r.device, device_limit := r.device_limit }
  block : r.device.block = fs.device.block
  size : r.device.size = fs.device.size
  limit : r.device_limit = fs.device_limit + (end_ - start)
  old : ∀ a, a < fs.device_limit → r.device.data a = fs.device.data a
  new : ∀ i, i < end_ - start → r.device.data (fs.device_limit + i) = src (start + i)

/-- What `logfs_flush` establishes about its result `r`: the pending bytes
follow the old device contents, `write_tail` catches up with `write_head`. -/
structure FlushAllPost (fs r : logfs) : Prop where
  frame : r = { fs with device := r.device, device_limit := r.device_limit,
                        write_tail := fs.write_head }
  block : r.device.block = fs.device.block
  size : r.device.size = fs.device.size
  limit : r.device_limit = fs.device_limit + pending fs
  old : ∀ a, a < fs.device_limit → r.device.data a = fs.device.data a
  new : ∀ i, i < pending fs → r.device.data (fs.device_limit + i) = pending_byte fs i

/-- What a full flush round establishes about its result `r`, flags aside:
the pending bytes follow the old device contents and `write_tail` catches up
with `write_head`. -/
structure Drained (fs r : logfs) : Prop where
  mem : r.mem = fs.mem
  write_queue : r.write_queue = fs.write_queue
  write_head : r.write_head = fs.write_head
  write_tail : r.write_tail = fs.write_head
  write_limit : r.write_limit = fs.write_limit
  read_queue : r.read_queue = fs.read_queue
  read_start_addr : r.read_start_addr = fs.read_start_addr
  read_end_addr : r.read_end_addr = fs.read_end_addr
  block : r.device.block = fs.device.block
  size : r.device.size = fs.device.size
  limit : r.device_limit = fs.device_limit + pending fs
  old : ∀ a, a < fs.device_limit → r.device.data a = fs.device.data a
  new : ∀ i, i < pending fs → r.device.data (fs.device_limit + i) = pending_byte fs i

/-- The counters of a state are consistent with `total` bytes appended so far:
the buffer positions are not below the buffer base, and the durable bytes plus
the pending bytes are at most `total`. -/
def counters_ok (fs : logfs) (total : Nat) : Prop :=
  fs.write_queue ≤ fs.write_head ∧ fs.write_queue ≤ fs.write_tail ∧
  fs.device_limit + pending fs ≤ total

/-- The bytes of a log after `len` bytes of `buf` are appended to `total`
bytes `data`. -/
def log_append (data : Bytes) (total : Nat) (buf : Bytes) : Bytes :=
  fun i => if i < total then data i else buf (i - total)

/-- The log of `fs` holds the `total` bytes `data`: those below `device_limit`
are on the device, the others are pending in the write buffer, in order, and
the buffer is not full. -/
structure LogInv (fs : logfs) (data : Bytes) (total : Nat) : Prop where
  block : 0 < fs.block_size
  limit : fs.write_limit = fs.write_queue + fs.block_size * WCACHE_BLOCKS
  head : fs.write_queue ≤ fs.write_head ∧ fs.write_head ≤ fs.write_limit
  tail : fs.write_queue ≤ fs.write_tail ∧ fs.write_tail ≤ fs.write_limit
  room : pending fs < fs.block_size * WCACHE_BLOCKS
  count : fs.device_limit + pending fs = total
  durable : ∀ i, i < fs.device_limit → fs.device.data i = data i
  queued : ∀ i, i < pending fs → pending_byte fs i = data (fs.device_limit + i)

/-- A call whose read, if it is one, starts at or below the `device_limit`
that the forced flush of a refill leaves, asks for a window that fits the read
cache, and stays clear of 64-bit wrap-around. -/
def read_in_log (fs : logfs) : call → Bool
  | .read _ off len =>
    decide (off - off % fs.block_size ≤ (reader_function fs).device_limit ∧
      off % fs.block_size + len ≤ fs.block_size * RCACHE_BLOCKS ∧
      off + len + fs.block_size ≤ U64)
  | _ => true

/-- Every read of a run satisfies `read_in_log` in the state it is called in. -/
def reads_in_log (fs : logfs) : List call → Bool
  | [] => true
  | c :: cs => read_in_log fs c && reads_in_log (step fs c) cs

/-- Every append of the sequence is shorter than `C`. -/
def appends_below (C : Nat) : List call → Bool
  | [] => true
  | .append _ len :: cs => decide (len < C) && appends_below C cs
  | .flush :: cs => appends_below C cs
  | .read _ _ _ :: cs => appends_below C cs

/-- Every call of the sequence is a flush or an append shorter than `C`. -/
def writes_below (C : Nat) : List call → Bool
  | [] => true
  | .append _ len :: cs => decide (len < C) && writes_below C cs
  | .flush :: cs => writes_below C cs
  | .read _ _ _ :: _ => false

/-! ## Concrete devices, states and runs -/

/-- A device with blocks of 4 bytes whose byte at offset `a` is `a + 1`. -/
def demo_device : device := { block := 4, size := 4096, data := fun a => a + 1 }

/-- A state over `demo_device` with six durable bytes: the write buffer starts
at address 8, holds the byte `100 + a` at address `a`, and its bytes from
address 11 to address 29 are pending. -/
def demo_state : logfs :=
  { logfs_open demo_device 2 with
    mem := fun a => 100 + a
    write_tail := 11
    write_head := 29
    device_limit := 6 }

/-- A log over `demo_device` after an append of the six bytes 1 .. 6 and a
flush: `device_limit` is 6. -/
def six_byte_log : logfs :=
  run (logfs_open demo_device 2) [call.append (fun i => i + 1) 6, call.flush]

/-- A device with blocks of 512 bytes, all zero. -/
def disk512 : device := { block := 512, size := 1048576, data := fun _ => 0 }

/-- The calls of the failing run: one byte, then as many bytes as the write
buffer holds (`32 * 512 = 16384`), numbered from 1. -/
def capacity_calls : List call :=
  [call.append (fun _ => 7) 1, call.append (fun i => i + 1) 16384]

/-- The log over `disk512` after `capacity_calls`. -/
def capacity_log : logfs := run (logfs_open disk512 3) capacity_calls

/-- A device with blocks of 2 bytes, all zero: the write buffer over it holds
64 bytes. -/
def small_device : device := { block := 2, size := 4096, data := fun _ => 0 }

/-- A run on `small_device` that wraps around the end of the write buffer:
5, 40 and 40 bytes, numbered through, with a flush in between. -/
def wrap_calls : List call :=
  [call.append (fun i => i + 1) 5, call.append (fun i => i + 6) 40, call.flush,
   call.append (fun i => i + 46) 40]

/-- The log over `small_device` after `wrap_calls`: 45 bytes are durable and
the 40 pending bytes wrap around the end of the write buffer. -/
def wrapped_log : logfs := run (logfs_open small_device 2) wrap_calls

/-- What a call of `logfs_flush_` does outside the state: a transfer from or to
the device, a read of `len` bytes of the memory it was given as source at
address `addr` (by `memcpy` or as the buffer of `device_write`), or an event
of its nested call, whose source is the scratch buffer. -/
inductive event where
  | device_read (off len : Nat)
  | device_write (off len : Nat)
  | source_read (addr len : Nat)
  | nested (e : event)
  deriving DecidableEq

/-- The events of lines 250-257 of `logfs_flush_`: the whole-block write reads
its rounded length from the source. -/
def logfs_flush_write_events (fs : logfs) (start end_ : Nat) : List event :=
  let len := end_ - start
  let len_diff := len % fs.block_size
  let len := if len_diff > 0 then len + (fs.block_size - len_diff) else len
  [event.source_read start len, event.device_write fs.device_limit len]

/-- The function `logfs_flush_rest` with the events of the call. -/
def logfs_flush_rest_traced (self : logfs → Bytes → Nat → Nat → Option (logfs × List event))
    (fs : logfs) (src : Bytes) (start end_ : Nat) : Option (logfs × List event) :=
  if start % fs.block_size > 0 then
    let temp_mem := memset fresh 0 0 (fs.block_size * WCACHE_BLOCKS)
    let len := end_ - start
    let temp_mem := memcpy temp_mem 0 src start len
    match self fs temp_mem 0 (0 + len) with
    | some (r, evs) => some (r, event.source_read start len :: evs.map event.nested)
    | none => none
  else
    some (logfs_flush_write fs src start end_, logfs_flush_write_events fs start end_)

/-- The events of lines 220-228 of `logfs_flush_`: the trailing block is read
from the device, `block_size - slack` bytes are copied from the source and the
block is written back. -/
def logfs_flush_merge_events (fs : logfs) (start : Nat) : List event :=
  let diff := fs.device_limit % fs.block_size
  let diff_ := fs.block_size - diff
  [event.device_read (fs.device_limit - diff) fs.block_size,
   event.source_read start diff_,
   event.device_write (fs.device_limit - diff) fs.block_size]

/-- The function `logfs_flush_body` with the events of the call. -/
def logfs_flush_body_traced (self : logfs → Bytes → Nat → Nat → Option (logfs × List event))
    (fs : logfs) (src : Bytes) (start end_ : Nat) : Option (logfs × List event) :=
  if start = end_ then some (fs, [])
  else
    let diff := fs.device_limit % fs.block_size
    if diff > 0 then
      let diff_ := fs.block_size - diff
      let dev := logfs_flush_merge fs src start
      if start + diff_ > end_ then
        some ({ fs with device := dev, device_limit := fs.device_limit + (end_ - start) },
          logfs_flush_merge_events fs start)
      else
        match logfs_flush_rest_traced self
          { fs with device := dev, device_limit := fs.device_limit + diff_ }
          src (start + diff_) end_ with
        | some (r, evs) => some (r, logfs_flush_merge_events fs start ++ evs)
        | none => none
    else
      logfs_flush_rest_traced self fs src start end_

/-- The function `logfs_flush_fuel` with the events of the call. -/
def logfs_flush_traced_fuel : Nat → logfs → Bytes → Nat → Nat → Option (logfs × List event)
  | 0 => fun _ _ _ _ => none
  | n + 1 => logfs_flush_body_traced (logfs_flush_traced_fuel n)

/-- The events of a call `logfs_flush_(fs, start, end)`, in order. -/
def logfs_flush_events (fs : logfs) (src : Bytes) (start end_ : Nat) : List event :=
  match logfs_flush_traced_fuel 2 fs src start end_ with
  | some (_, evs) => evs
  | none => []

/-- The events of a call `logfs_flush(fs)`: those of its one or two calls of
`logfs_flush_`. -/
def logfs_flush_all_events (fs : logfs) : List event :=
  let head_addr := fs.write_head
  if head_addr < fs.write_tail then
    let fs1 := logfs_flush_ fs fs.mem fs.write_tail fs.write_limit
    logfs_flush_events fs fs.mem fs.write_tail fs.write_limit
      ++ logfs_flush_events fs1 fs1.mem fs1.write_queue head_addr
  else
    logfs_flush_events fs fs.mem fs.write_tail head_addr

/-- The shape of the write buffer in a state: the base is block-aligned, the
buffer has `block_size * 32` bytes, `write_head` and `write_tail` lie inside
it, and the offset of `write_tail` in the buffer is congruent to
`device_limit` modulo the block size. -/
structure Shape (fs : logfs) : Prop where
  block : 0 < fs.block_size
  base : fs.write_queue % fs.block_size = 0
  limit : fs.write_limit = fs.write_queue + fs.block_size * WCACHE_BLOCKS
  head : fs.write_queue ≤ fs.write_head ∧ fs.write_head ≤ fs.write_limit
  tail : fs.write_queue ≤ fs.write_tail ∧ fs.write_tail ≤ fs.write_limit
  aligned : (fs.write_tail - fs.write_queue) % fs.block_size
    = fs.device_limit % fs.block_size

/-- A call whose copy, if it is an append, stays inside the write buffer: at
most `write_limit - write_head` bytes up to the end of the buffer and at most
the size of the buffer from its base. -/
def append_fits (fs : logfs) : call → Bool
  | .append _ len =>
    decide (len ≤ (fs.write_limit - fs.write_head) + (fs.write_limit - fs.write_queue))
  | .flush => true
  | .read _ _ _ => true

/-- Every append of a run stays inside the write buffer, in the state it is
called in. -/
def appends_fit (fs : logfs) : List call → Bool
  | [] => true
  | c :: cs => append_fits fs c && appends_fit (step fs c) cs

/-- The free space that `logfs_append` computes (lines 176-183): the capacity
minus the number of pending bytes. -/
def free_space (fs : logfs) : Nat :=
  if fs.write_head < fs.write_tail then fs.write_tail - fs.write_head
  else fs.write_limit - fs.write_queue - (fs.write_head - fs.write_tail)

/-- The source bytes an event reads lie inside `lo .. hi`; those of a nested
call lie inside a scratch buffer of the same size, based at 0. -/
def reads_inside (lo hi : Nat) : event → Bool
  | .device_read _ _ => true
  | .device_write _ _ => true
  | .source_read addr len => decide (lo ≤ addr ∧ addr + len ≤ hi)
  | .nested e => reads_inside 0 (hi - lo) e

/-- Every append of the sequence has a length of at most `C`. -/
def appends_within (C : Nat) : List call → Bool
  | [] => true
  | .append _ len :: cs => decide (len ≤ C) && appends_within C cs
  | .flush :: cs => appends_within C cs
  | .read _ _ _ :: cs => appends_within C cs

/-- A run on `demo_device` that leaves one durable byte and one pending byte:
the trailing block of the device has room for three more bytes. -/
def slack_calls : List call :=
  [call.append (fun _ => 7) 1, call.flush, call.append (fun _ => 8) 1]

/-- A run on `small_device` that leaves `write_head = write_tail` 45 bytes
into the write buffer of 64 bytes, with 45 durable bytes. -/
def drained_calls : List call :=
  [call.append (fun i => i + 1) 5, call.append (fun i => i + 6) 40, call.flush]

/-- A run on `small_device` whose second append wraps around the end of the
write buffer and lands on bytes of the first append that are already durable:
50 bytes numbered from 1, a flush, 25 bytes numbered from 101. -/
def stale_calls : List call :=
  [call.append (fun i => i + 1) 50, call.flush, call.append (fun i => i + 101) 25]

/-- The log over `small_device` after `stale_calls`. -/
def stale_log : logfs := run (logfs_open small_device 2) stale_calls

/-- The read cache mirrors the device: every cached byte inside the window is
the device byte of its offset, and the window ends at or below `device_limit`
and below `2 ^ 64`. -/
structure CacheInv (fs : logfs) : Prop where
  coherent : ∀ j, fs.read_start_addr + j < fs.read_end_addr →
    fs.read_queue j = fs.device.data (fs.read_start_addr + j)
  end_le : fs.read_end_addr ≤ fs.device_limit
  end_lt : fs.read_end_addr < U64

/-- Every read of the sequence asks for a window that fits the read cache of
`block_size * 256` bytes, for the block size `B`. -/
def reads_fit (B : Nat) : List call → Bool
  | [] => true
  | .append _ _ :: cs => reads_fit B cs
  | .flush :: cs => reads_fit B cs
  | .read _ off len :: cs => decide (off % B + len ≤ B * RCACHE_BLOCKS) && reads_fit B cs

/-- A device of a single block of 4 bytes. -/
def one_block_device : device := { block := 4, size := 4, data := fun _ => 0 }

/-- A log of six bytes over `one_block_device`, longer than the device, after
a read of the six bytes has set the window of the read cache to `0 .. 6`. -/
def outgrown_log : logfs :=
  run (logfs_open one_block_device 2)
    [call.append (fun i => i + 1) 6, call.flush, call.read fresh 0 6]

/-- A run on `demo_device` that caches the first six bytes of the log and
then appends and flushes three more. -/
def cached_calls : List call :=
  [call.append (fun i => i + 1) 6, call.flush, call.read fresh 0 6,
   call.append (fun i => i + 7) 3, call.flush]

/-! ## The worker thread and the calling thread -/

/-- The two threads of an open log: the worker created by `logfs_open`, which
runs `writer_function`, and the thread that calls the public interface. -/
inductive thread where
  | worker
  | caller
  deriving DecidableEq

/-- Program points of `writer_function` (lines 276-292). -/
inductive worker_pc where
  /-- Line 280, the test of the outer loop. -/
  | outer_test
  /-- Line 281, `pthread_mutex_lock`. -/
  | lock
  /-- Line 283, the test of the inner loop, with the mutex held. -/
  | inner_test
  /-- Line 284, blocked in `pthread_cond_wait` on `can_write`. -/
  | waiting
  /-- Line 284, signalled: the mutex has to be taken again. -/
  | woken
  /-- Line 286, the call of `logfs_flush`. -/
  | flush
  /-- Lines 287-289, the flags and the signal on `can_read`. -/
  | flags
  /-- Line 290, `pthread_mutex_unlock`. -/
  | unlock
  /-- The function has left its outer loop and the thread has ended. -/
  | exited
  deriving DecidableEq

/-- A call made by the calling thread: `logfs_append(buf, len)` or
`logfs_close`. -/
inductive request where
  | append (buf : Bytes) (len : Nat)
  | close

/-- Program points of the calling thread in `logfs_append`, in the
`reader_function` that it calls, and in `logfs_close`. -/
inductive caller_pc where
  /-- Between two calls. -/
  | idle
  /-- Line 297 of `reader_function`, called from line 185. -/
  | rf_lock (buf : Bytes) (len : Nat)
  /-- Lines 299-301. -/
  | rf_flags (buf : Bytes) (len : Nat)
  /-- Line 303, the test of the wait loop, with the mutex held. -/
  | rf_test (buf : Bytes) (len : Nat)
  /-- Line 304, blocked in `pthread_cond_wait` on `can_read`. -/
  | rf_waiting (buf : Bytes) (len : Nat)
  /-- Line 304, signalled: the mutex has to be taken again. -/
  | rf_woken (buf : Bytes) (len : Nat)
  /-- Line 306. -/
  | rf_unlock (buf : Bytes) (len : Nat)
  /-- Lines 188-203 of `logfs_append`. -/
  | copy (buf : Bytes) (len : Nat)
  /-- Line 117 of `logfs_close`. -/
  | close_allow
  /-- Line 118. -/
  | close_signal
  /-- Line 119, blocked in `pthread_join`. -/
  | join
  /-- The worker has been joined; `logfs_close` frees the log. -/
  | closed

/-- The log shared by the two threads, the owner state of `fs->mutex`, the
program points of both threads, the calls that the calling thread has still to
make and the number of bytes of the appends that have returned. -/
structure machine where
  fs : logfs
  mutex : Bool
  worker : worker_pc
  caller : caller_pc
  todo : List request
  returned : Nat

/-- The machine right after `logfs_open`: `pthread_create` has made the
worker, which has not run yet. -/
def boot (dev : device) (k : Nat) (todo : List request) : machine :=
  { fs := logfs_open dev k, mutex := false, worker := worker_pc.outer_test,
    caller := caller_pc.idle, todo := todo, returned := 0 }

/-- The call `pthread_cond_signal(&fs->can_write)`: a worker blocked on the
condition is woken. -/
def signal_can_write (m : machine) : machine :=
  if m.worker = worker_pc.waiting then { m with worker := worker_pc.woken } else m

/-- The call `pthread_cond_signal(&fs->can_read)`: a caller blocked on the
condition is woken. -/
def signal_can_read (m : machine) : machine :=
  match m.caller with
  | caller_pc.rf_waiting buf len => { m with caller := caller_pc.rf_woken buf len }
  | _ => m

/-- One statement of `writer_function` (lines 276-292); `none` when the
thread is blocked or has ended. -/
def writer_function_step (m : machine) : Option machine :=
  match m.worker with
  | worker_pc.outer_test =>
    if m.fs.should_exit = 0 then some { m with worker := worker_pc.lock }
    else some { m with worker := worker_pc.exited }
  | worker_pc.lock =>
    if m.mutex then none else some { m with mutex := true, worker := worker_pc.inner_test }
  | worker_pc.inner_test =>
    if m.fs.should_exit = 0 ∧ m.fs.write_allow = 0 then
      some { m with mutex := false, worker := worker_pc.waiting }
    else some { m with worker := worker_pc.flush }
  | worker_pc.waiting => none
  | worker_pc.woken =>
    if m.mutex then none else some { m with mutex := true, worker := worker_pc.inner_test }
  | worker_pc.flush =>
    some { m with fs := (logfs_flush m.fs).2, worker := worker_pc.flags }
  | worker_pc.flags =>
    some (signal_can_read { m with
      fs := { m.fs with write_allow := 0, read_allow := 1 }, worker := worker_pc.unlock })
  | worker_pc.unlock => some { m with mutex := false, worker := worker_pc.outer_test }
  | worker_pc.exited => none

/-- One statement of the calling thread, in `logfs_append` (lines 175-204),
`reader_function` (lines 295-307) or `logfs_close` (lines 114-119); `none`
when the thread is blocked or has no call left. -/
def caller_step (m : machine) : Option machine :=
  match m.caller with
  | caller_pc.idle =>
    match m.todo with
    | [] => none
    | request.append buf len :: rest =>
      if len ≥ free_space m.fs then some { m with caller := caller_pc.rf_lock buf len, todo := rest }
      else some { m with caller := caller_pc.copy buf len, todo := rest }
    | request.close :: rest =>
      some { m with fs := { m.fs with should_exit := 1 }, caller := caller_pc.close_allow,
                    todo := rest }
  | caller_pc.rf_lock buf len =>
    if m.mutex then none else some { m with mutex := true, caller := caller_pc.rf_flags buf len }
  | caller_pc.rf_flags buf len =>
    some (signal_can_write { m with
      fs := { m.fs with write_allow := 1, read_allow := 0 }, caller := caller_pc.rf_test buf len })
  | caller_pc.rf_test buf len =>
    if m.fs.read_allow = 0 then some { m with mutex := false, caller := caller_pc.rf_waiting buf len }
    else some { m with caller := caller_pc.rf_unlock buf len }
  | caller_pc.rf_waiting _ _ => none
  | caller_pc.rf_woken buf len =>
    if m.mutex then none else some { m with mutex := true, caller := caller_pc.rf_test buf len }
  | caller_pc.rf_unlock buf len => some { m with mutex := false, caller := caller_pc.copy buf len }
  | caller_pc.copy buf len =>
    some (signal_can_write { m with
      fs := (logfs_append_copy m.fs buf len).2, caller := caller_pc.idle,
      returned := m.returned + len })
  | caller_pc.close_allow =>
    some { m with fs := { m.fs with write_allow := 1 }, caller := caller_pc.close_signal }
  | caller_pc.close_signal => some (signal_can_write { m with caller := caller_pc.join })
  | caller_pc.join =>
    if m.worker = worker_pc.exited then some { m with caller := caller_pc.closed } else none
  | caller_pc.closed => none

/-- An interleaving: the thread that runs each next statement.  A thread that
is blocked when its turn comes does nothing. -/
def interleave (m : machine) : List thread → machine
  | [] => m
  | thread.worker :: ts => interleave ((writer_function_step m).getD m) ts
  | thread.caller :: ts => interleave ((caller_step m).getD m) ts

/-- One append of one byte, then `logfs_close`. -/
def one_byte_then_close : List request :=
  [request.append (fun i => i + 1) 1, request.close]

/-- The interleaving in which the worker gets its first turn after the caller
has reached `pthread_join`. -/
def late_worker : List thread :=
  [thread.caller, thread.caller, thread.caller, thread.caller, thread.caller,
   thread.worker, thread.caller]

/-- The interleaving in which the worker reaches `pthread_cond_wait` before
the caller makes its first call. -/
def early_worker : List thread :=
  [thread.worker, thread.worker, thread.worker,
   thread.caller, thread.caller, thread.caller, thread.caller, thread.caller,
   thread.worker, thread.worker, thread.worker, thread.worker, thread.worker, thread.worker,
   thread.caller]

/-! ## Arithmetic of block alignment -/

theorem sub_mod_self (L B : Nat) : (L - L % B) % B = 0 :=
  Nat.sub_mod_eq_zero_of_mod_eq (Nat.mod_mod _ _).symm

/-- Padding a length up to the next block boundary gives a multiple of the
block size. -/
theorem add_pad_mod (L B : Nat) (hB : 0 < B) : (L + (B - L % B)) % B = 0 := by
  have h1 : L % B < B := Nat.mod_lt _ hB
  have h2 : L % B ≤ L := Nat.mod_le _ _
  have h3 : L + (B - L % B) = (L - L % B) + B := by omega
  rw [h3, Nat.add_mod_right]
  exact sub_mod_self L B

@[simp]
theorem device_write_block (dev : device) (m : Bytes) (b o l : Nat) :
    (device_write dev m b o l).2.block = dev.block := by
  unfold device_write; split <;> rfl

@[simp]
theorem device_write_size (dev : device) (m : Bytes) (b o l : Nat) :
    (device_write dev m b o l).2.size = dev.size := by
  unfold device_write; split <;> rfl

theorem device_write_data (dev : device) (m : Bytes) (b o l : Nat)
    (ho : o % dev.block = 0) (hl : l % dev.block = 0) :
    (device_write dev m b o l).2.data = memcpy dev.data o m b l := by
  simp [device_write, ho, hl]

theorem device_read_data (dev : device) (m : Bytes) (b o l : Nat)
    (ho : o % dev.block = 0) (hl : l % dev.block = 0) :
    (device_read dev m b o l).2 = memcpy m b dev.data o l := by
  simp [device_read, ho, hl]

@[simp]
theorem merge_block (fs : logfs) (src : Bytes) (start : Nat) :
    (logfs_flush_merge fs src start).block = fs.device.block := by
  simp [logfs_flush_merge]

@[simp]
theorem merge_size (fs : logfs) (src : Bytes) (start : Nat) :
    (logfs_flush_merge fs src start).size = fs.device.size := by
  simp [logfs_flush_merge]

/-- The device after the read-modify-write of the trailing block: the bytes
from `device_limit` to the end of its block come from the source. -/
theorem merge_data (fs : logfs) (src : Bytes) (start : Nat) (hB : 0 < fs.device.block) (a : Nat) :
    (logfs_flush_merge fs src start).data a
    = if fs.device_limit ≤ a ∧
        a < fs.device_limit - fs.device_limit % fs.device.block + fs.device.block
      then src (start + (a - fs.device_limit)) else fs.device.data a := by
  have h0 := sub_mod_self fs.device_limit fs.device.block
  have h1 : fs.device_limit % fs.device.block < fs.device.block := Nat.mod_lt _ hB
  have h2 : fs.device_limit % fs.device.block ≤ fs.device_limit := Nat.mod_le _ _
  simp only [logfs_flush_merge, logfs.block_size, device_block]
  rw [device_write_data _ _ _ _ _ h0 (Nat.mod_self _), device_read_data _ _ _ _ _ h0 (Nat.mod_self _)]
  simp only [memcpy]
  split_ifs <;> first | omega | rfl | (congr 1; omega)

/-! ## The flush engine -/

theorem flush_write_post (fs : logfs) (src : Bytes) (start end_ : Nat)
    (hB : 0 < fs.block_size) (hL : fs.device_limit % fs.block_size = 0) :
    FlushPost fs src start end_ (logfs_flush_write fs src start end_) := by
  simp only [logfs.block_size, device_block] at hB hL
  have hpad := add_pad_mod (end_ - start) fs.device.block hB
  have hlen : (if (end_ - start) % fs.device.block > 0
      then end_ - start + (fs.device.block - (end_ - start) % fs.device.block)
      else end_ - start) % fs.device.block = 0 := by
    split_ifs with h
    · exact hpad
    · omega
  have hge : end_ - start ≤ (if (end_ - start) % fs.device.block > 0
      then end_ - start + (fs.device.block - (end_ - start) % fs.device.block)
      else end_ - start) := by
    split_ifs <;> omega
  refine ⟨rfl, by simp [logfs_flush_write], by simp [logfs_flush_write], rfl, ?_, ?_⟩
  · intro a ha
    simp only [logfs_flush_write, logfs.block_size, device_block]
    rw [device_write_data _ _ _ _ _ hL hlen]
    simp only [memcpy]
    rw [if_neg (by omega)]
  · intro i hi
    simp only [logfs_flush_write, logfs.block_size, device_block]
    rw [device_write_data _ _ _ _ _ hL hlen]
    simp only [memcpy]
    rw [if_pos (by omega)]
    congr 1; omega

/-- With `device_limit` and `start` block-aligned, the body of `logfs_flush_`
returns without calling itself. -/
theorem flush_body_aligned (fs : logfs) (src : Bytes) (start end_ : Nat)
    (hB : 0 < fs.block_size) (hL : fs.device_limit % fs.block_size = 0)
    (hs : start % fs.block_size = 0) :
    ∃ r, (∀ self, logfs_flush_body self fs src start end_ = some r) ∧
      FlushPost fs src start end_ r := by
  by_cases he : start = end_
  · refine ⟨fs, fun self => by simp [logfs_flush_body, he], ?_⟩
    subst he
    exact ⟨rfl, rfl, rfl, by simp, fun _ _ => rfl, fun i hi => by omega⟩
  · refine ⟨logfs_flush_write fs src start end_, fun self => ?_, flush_write_post fs src start end_ hB hL⟩
    simp [logfs_flush_body, he, hL, logfs_flush_rest, hs]

/-- After the merge, one more level of recursion is enough for the rest of
`logfs_flush_`. -/
theorem flush_rest_post (fs : logfs) (src : Bytes) (start end_ : Nat)
    (hB : 0 < fs.block_size) (hL : fs.device_limit % fs.block_size = 0) :
    ∃ r, (∀ n, logfs_flush_rest (logfs_flush_fuel (n + 1)) fs src start end_ = some r) ∧
      FlushPost fs src start end_ r := by
  by_cases hs : start % fs.block_size > 0
  · obtain ⟨r, hr, hp⟩ := flush_body_aligned fs
      (memcpy (memset fresh 0 0 (fs.block_size * WCACHE_BLOCKS)) 0 src start (end_ - start))
      0 (0 + (end_ - start)) hB hL (Nat.zero_mod _)
    refine ⟨r, fun n => ?_, ?_⟩
    · simp only [logfs_flush_rest, hs, if_true, logfs_flush_fuel]
      exact hr _
    · refine ⟨hp.frame, hp.block, hp.size, ?_, hp.old, ?_⟩
      · rw [hp.limit]; omega
      · intro i hi
        rw [hp.new i (by omega)]
        simp only [memcpy]
        rw [if_pos (by omega)]
        congr 1; omega
  · exact ⟨_, fun n => by simp [logfs_flush_rest, hs], flush_write_post fs src start end_ hB hL⟩

/-- Two levels of recursion are enough for `logfs_flush_`, and its result meets
the postcondition. -/
theorem flush_fuel_post (fs : logfs) (src : Bytes) (start end_ : Nat)
    (hB : 0 < fs.block_size) :
    ∃ r, (∀ n, logfs_flush_fuel (n + 2) fs src start end_ = some r) ∧
      FlushPost fs src start end_ r := by
  have hlt : fs.device_limit % fs.block_size < fs.block_size := Nat.mod_lt _ hB
  have hle : fs.device_limit % fs.block_size ≤ fs.device_limit := Nat.mod_le _ _
  by_cases he : start = end_
  · refine ⟨fs, fun n => by simp [logfs_flush_fuel, logfs_flush_body, he], ?_⟩
    subst he
    exact ⟨rfl, rfl, rfl, by simp, fun _ _ => rfl, fun i hi => by omega⟩
  by_cases hd : fs.device_limit % fs.block_size > 0
  · by_cases hfit : start + (fs.block_size - fs.device_limit % fs.block_size) > end_
    · refine ⟨{ fs with device := logfs_flush_merge fs src start,
                        device_limit := fs.device_limit + (end_ - start) },
        fun n => by simp only [logfs_flush_fuel, logfs_flush_body, he, hd, hfit, if_true, if_false],
        ?_⟩
      simp only [logfs.block_size, device_block] at hB hlt hle hfit
      refine ⟨rfl, by simp, by simp, rfl, ?_, ?_⟩
      · intro a ha
        simp only []
        rw [merge_data _ _ _ hB, if_neg (by omega)]
      · intro i hi
        simp only []
        rw [merge_data _ _ _ hB, if_pos (by omega)]
        congr 1; omega
    · obtain ⟨r, hr, hp⟩ := flush_rest_post
        { fs with
          device := logfs_flush_merge fs src start
          device_limit := fs.device_limit + (fs.block_size - fs.device_limit % fs.block_size) }
        src (start + (fs.block_size - fs.device_limit % fs.block_size)) end_
        (by simpa [logfs.block_size, device_block] using hB)
        (by simpa [logfs.block_size, device_block] using add_pad_mod fs.device_limit fs.device.block hB)
      refine ⟨r, fun n => ?_, ?_⟩
      · simp only [logfs_flush_fuel, logfs_flush_body, he, hd, hfit, if_true, if_false]
        exact hr n
      · have hframe := hp.frame
        have hblock := hp.block
        have hsize := hp.size
        have hlimit := hp.limit
        have hold := hp.old
        have hnew := hp.new
        simp only [logfs.block_size, device_block, merge_block, merge_size]
          at hB hlt hle hfit hframe hblock hsize hlimit hold hnew
        refine ⟨hframe, hblock, hsize, by omega, ?_, ?_⟩
        · intro a ha
          rw [hold a (by omega), merge_data _ _ _ hB, if_neg (by omega)]
        · intro i hi
          by_cases hi2 : i < fs.device.block - fs.device_limit % fs.device.block
          · rw [hold _ (by omega), merge_data _ _ _ hB, if_pos (by omega)]
            congr 1; omega
          · have h := hnew (i - (fs.device.block - fs.device_limit % fs.device.block)) (by omega)
            have e1 : fs.device_limit + i = fs.device_limit +
                (fs.device.block - fs.device_limit % fs.device.block) +
                (i - (fs.device.block - fs.device_limit % fs.device.block)) := by omega
            rw [e1, h]
            congr 1; omega
  · obtain ⟨r, hr, hp⟩ := flush_rest_post fs src start end_ hB (by omega)
    refine ⟨r, fun n => ?_, hp⟩
    simp only [logfs_flush_fuel, logfs_flush_body, he, hd, if_false]
    exact hr n

/-- The function `logfs_flush_` returns: any depth of at least 2 gives the
result of the model. -/
theorem logfs_flush_fuel_enough (fs : logfs) (src : Bytes) (start end_ : Nat)
    (hB : 0 < fs.block_size) (n : Nat) :
    logfs_flush_fuel (n + 2) fs src start end_ = some (logfs_flush_ fs src start end_) := by
  obtain ⟨r, hr, _⟩ := flush_fuel_post fs src start end_ hB
  have h0 := hr 0
  simp only [Nat.zero_add] at h0
  rw [hr n, logfs_flush_, h0]
  rfl

/-- The postcondition of `logfs_flush_`. -/
theorem flush_post (fs : logfs) (src : Bytes) (start end_ : Nat) (hB : 0 < fs.block_size) :
    FlushPost fs src start end_ (logfs_flush_ fs src start end_) := by
  obtain ⟨r, hr, hp⟩ := flush_fuel_post fs src start end_ hB
  have h0 := hr 0
  simp only [Nat.zero_add] at h0
  rw [logfs_flush_, h0]
  exact hp

theorem flushPost_fields {fs r : logfs} {src : Bytes} {s e : Nat} (h : FlushPost fs src s e r) :
    r.mem = fs.mem ∧ r.write_queue = fs.write_queue ∧ r.write_head = fs.write_head ∧
    r.write_tail = fs.write_tail ∧ r.write_limit = fs.write_limit ∧
    r.read_queue = fs.read_queue ∧ r.read_start_addr = fs.read_start_addr ∧
    r.read_end_addr = fs.read_end_addr ∧ r.write_allow = fs.write_allow ∧
    r.read_allow = fs.read_allow ∧ r.should_exit = fs.should_exit ∧
    r.block_size = fs.block_size := by
  have hf := h.frame
  have hb := h.block
  refine ⟨?_, ?_, ?_, ?_, ?_, ?_, ?_, ?_, ?_, ?_, ?_, ?_⟩ <;>
    first
    | (simp only [logfs.block_size, device_block]; exact hb)
    | (rw [hf])

/-- The function `logfs_flush` returns 0. -/
theorem logfs_flush_status (fs : logfs) : (logfs_flush fs).1 = 0 := by
  simp only [logfs_flush]
  split <;> rfl

/-- The postcondition of `logfs_flush`, for a pending region in one piece or
wrapped around the end of the buffer. -/
theorem flush_all_post (fs : logfs) (hB : 0 < fs.block_size) :
    FlushAllPost fs (logfs_flush fs).2 := by
  unfold logfs_flush
  by_cases hw : fs.write_head < fs.write_tail
  · simp only [hw, if_true]
    have h1 := flush_post fs fs.mem fs.write_tail fs.write_limit hB
    obtain ⟨m1, q1, hd1, t1, l1, rq1, rs1, re1, wa1, ra1, se1, b1⟩ := flushPost_fields h1
    have h2 := flush_post (logfs_flush_ fs fs.mem fs.write_tail fs.write_limit)
      (logfs_flush_ fs fs.mem fs.write_tail fs.write_limit).mem
      (logfs_flush_ fs fs.mem fs.write_tail fs.write_limit).write_queue fs.write_head
      (by rw [b1]; exact hB)
    obtain ⟨m2, q2, hd2, t2, l2, rq2, rs2, re2, wa2, ra2, se2, b2⟩ := flushPost_fields h2
    generalize logfs_flush_ fs fs.mem fs.write_tail fs.write_limit = f1 at *
    generalize logfs_flush_ f1 f1.mem f1.write_queue fs.write_head = f2 at *
    refine ⟨?_, ?_, ?_, ?_, ?_, ?_⟩
    · simp only []
      rw [← m1, ← q1, ← hd1, ← l1, ← rq1, ← rs1, ← re1, ← wa1, ← ra1, ← se1]
      rw [← m2, ← q2, ← hd2, ← l2, ← rq2, ← rs2, ← re2, ← wa2, ← ra2, ← se2]
    · simp only []; rw [h2.block, h1.block]
    · simp only []; rw [h2.size, h1.size]
    · simp only [pending, hw, if_true]
      rw [h2.limit, h1.limit, q1]; omega
    · intro a ha
      simp only []
      rw [h2.old a (by rw [h1.limit]; omega), h1.old a ha]
    · intro i hi
      simp only [pending, hw, if_true] at hi
      simp only [pending_byte, hw, if_true]
      by_cases hi1 : i < fs.write_limit - fs.write_tail
      · simp only [hi1, if_true]
        rw [h2.old _ (by rw [h1.limit]; omega), h1.new i hi1]
      · simp only [hi1, if_false]
        have := h2.new (i - (fs.write_limit - fs.write_tail)) (by rw [q1]; omega)
        rw [h1.limit, m1, q1] at this
        rw [← this]
        congr 1; omega
  · simp only [hw, if_false]
    have h1 := flush_post fs fs.mem fs.write_tail fs.write_head hB
    obtain ⟨m1, q1, hd1, t1, l1, rq1, rs1, re1, wa1, ra1, se1, b1⟩ := flushPost_fields h1
    generalize logfs_flush_ fs fs.mem fs.write_tail fs.write_head = f1 at *
    refine ⟨?_, h1.block, h1.size, ?_, h1.old, ?_⟩
    · simp only []
      rw [← m1, ← q1, ← hd1, ← l1, ← rq1, ← rs1, ← re1, ← wa1, ← ra1, ← se1]
    · simp only [pending, hw, if_false]
      exact h1.limit
    · intro i hi
      simp only [pending, hw, if_false] at hi
      simp only [pending_byte, hw, if_false]
      exact h1.new i hi

/-! ## Claims about the flush engine -/

/-- C3: with a positive block size and `start ≤ end`, `logfs_flush_` returns
(two levels of recursion are enough) and every device byte below the old
`device_limit` keeps its value, also in the trailing block that is read back,
merged and rewritten.  The same holds for `logfs_flush` whenever the calls of
`logfs_flush_` that it makes have `start ≤ end`: always when
`write_tail ≤ write_head`, and for a wrapped pending region
(`write_head < write_tail`) when `write_tail ≤ write_limit` and
`write_queue ≤ write_head`. -/
theorem logfs_flush__keeps_durable_bytes (fs : logfs) (src : Bytes) (start end_ a : Nat)
    (hB : 0 < fs.block_size) (_hse : start ≤ end_) (ha : a < fs.device_limit) :
    logfs_flush_fuel 2 fs src start end_ = some (logfs_flush_ fs src start end_) ∧
    (logfs_flush_ fs src start end_).device.data a = fs.device.data a ∧
    ((fs.write_head < fs.write_tail →
        fs.write_tail ≤ fs.write_limit ∧ fs.write_queue ≤ fs.write_head) →
      (logfs_flush fs).2.device.data a = fs.device.data a) :=
  ⟨logfs_flush_fuel_enough fs src start end_ hB 0,
   (flush_post fs src start end_ hB).old a ha,
   fun _ => (flush_all_post fs hB).old a ha⟩

/-- Witness of C3.  On `demo_state` a flush of the addresses 11 to 29 takes
the merge and the scratch copy and leaves the durable byte at offset 5 alone.
On `wrapped_log`, whose pending region wraps the end of the buffer,
`logfs_flush` leaves the durable byte at offset 44 alone, in the trailing
block that it merges. -/
theorem logfs_flush__keeps_durable_bytes_witness :
    0 < demo_state.block_size ∧ 11 ≤ 29 ∧ 5 < demo_state.device_limit ∧
    (logfs_flush_fuel 2 demo_state demo_state.mem 11 29
        = some (logfs_flush_ demo_state demo_state.mem 11 29) ∧
      (logfs_flush_ demo_state demo_state.mem 11 29).device.data 5
        = demo_state.device.data 5) ∧
    (demo_state.write_head < demo_state.write_tail →
      demo_state.write_tail ≤ demo_state.write_limit ∧
      demo_state.write_queue ≤ demo_state.write_head) ∧
    (logfs_flush demo_state).2.device.data 5 = demo_state.device.data 5 ∧
    0 < wrapped_log.block_size ∧ 44 < wrapped_log.device_limit ∧
    wrapped_log.write_head < wrapped_log.write_tail ∧
    wrapped_log.write_tail ≤ wrapped_log.write_limit ∧
    wrapped_log.write_queue ≤ wrapped_log.write_head ∧
    (logfs_flush wrapped_log).2.device.data 44 = wrapped_log.device.data 44 :=
  ⟨by decide, by decide, by decide,
   ⟨(logfs_flush__keeps_durable_bytes demo_state demo_state.mem 11 29 5
       (by decide) (by decide) (by decide)).1,
    (logfs_flush__keeps_durable_bytes demo_state demo_state.mem 11 29 5
       (by decide) (by decide) (by decide)).2.1⟩,
   by decide,
   (logfs_flush__keeps_durable_bytes demo_state demo_state.mem 11 29 5
     (by decide) (by decide) (by decide)).2.2 (by decide),
   by decide, by decide, by decide, by decide, by decide,
   (logfs_flush__keeps_durable_bytes wrapped_log wrapped_log.mem 0 0 44
     (by decide) (by decide) (by decide)).2.2 (fun _ => ⟨by decide, by decide⟩)⟩

/-- C4: with a positive block size, `device_limit = L` and a range
`start ≤ end` no longer than the write buffer, after `logfs_flush_(start,
end)` the device bytes at `L .. L + (end - start)` are the source bytes at
`start .. end`, in order, on every path through the merge, the scratch copy
and the whole-block write. -/
theorem logfs_flush__writes_source (fs : logfs) (src : Bytes) (start end_ i : Nat)
    (hB : 0 < fs.block_size) (_hse : start ≤ end_)
    (_hC : end_ - start ≤ fs.block_size * WCACHE_BLOCKS) (hi : i < end_ - start) :
    logfs_flush_fuel 2 fs src start end_ = some (logfs_flush_ fs src start end_) ∧
    (logfs_flush_ fs src start end_).device.data (fs.device_limit + i) = src (start + i) :=
  ⟨logfs_flush_fuel_enough fs src start end_ hB 0, (flush_post fs src start end_ hB).new i hi⟩

/-- Witness of C4 on `demo_state`: byte 7 of the range lands at offset 13. -/
theorem logfs_flush__writes_source_witness :
    0 < demo_state.block_size ∧ 11 ≤ 29 ∧
    29 - 11 ≤ demo_state.block_size * WCACHE_BLOCKS ∧ 7 < 29 - 11 ∧
    (logfs_flush_fuel 2 demo_state demo_state.mem 11 29
        = some (logfs_flush_ demo_state demo_state.mem 11 29) ∧
      (logfs_flush_ demo_state demo_state.mem 11 29).device.data (demo_state.device_limit + 7)
        = demo_state.mem (11 + 7)) :=
  ⟨by decide, by decide, by decide, by decide,
   logfs_flush__writes_source demo_state demo_state.mem 11 29 7
     (by decide) (by decide) (by decide) (by decide)⟩

/-- C5: with a positive block size and `start ≤ end`, `logfs_flush_` returns
and advances `device_limit` by exactly `end - start`, whichever path it
takes. -/
theorem logfs_flush__advances_limit (fs : logfs) (src : Bytes) (start end_ : Nat)
    (hB : 0 < fs.block_size) (_hse : start ≤ end_) :
    logfs_flush_fuel 2 fs src start end_ = some (logfs_flush_ fs src start end_) ∧
    (logfs_flush_ fs src start end_).device_limit = fs.device_limit + (end_ - start) :=
  ⟨logfs_flush_fuel_enough fs src start end_ hB 0, (flush_post fs src start end_ hB).limit⟩

/-- Witness of C5 on `demo_state`, at the boundary `start + (block_size -
slack) = end` of the strict comparison: two bytes fill the trailing block. -/
theorem logfs_flush__advances_limit_witness :
    0 < demo_state.block_size ∧ 11 ≤ 13 ∧
    (logfs_flush_fuel 2 demo_state demo_state.mem 11 13
        = some (logfs_flush_ demo_state demo_state.mem 11 13) ∧
      (logfs_flush_ demo_state demo_state.mem 11 13).device_limit
        = demo_state.device_limit + (13 - 11)) :=
  ⟨by decide, by decide,
   logfs_flush__advances_limit demo_state demo_state.mem 11 13 (by decide) (by decide)⟩

/-! ## Counters along a run -/

theorem flushAllPost_fields {fs r : logfs} (h : FlushAllPost fs r) :
    r.mem = fs.mem ∧ r.write_queue = fs.write_queue ∧ r.write_head = fs.write_head ∧
    r.write_tail = fs.write_head ∧ r.write_limit = fs.write_limit ∧
    r.read_queue = fs.read_queue ∧ r.read_start_addr = fs.read_start_addr ∧
    r.read_end_addr = fs.read_end_addr ∧ r.write_allow = fs.write_allow ∧
    r.read_allow = fs.read_allow ∧ r.should_exit = fs.should_exit ∧
    r.block_size = fs.block_size := by
  have hf := h.frame
  have hb := h.block
  refine ⟨?_, ?_, ?_, ?_, ?_, ?_, ?_, ?_, ?_, ?_, ?_, ?_⟩ <;>
    first
    | (simp only [logfs.block_size, device_block]; exact hb)
    | (rw [hf])

theorem logfs_flush_drained (fs : logfs) (hB : 0 < fs.block_size) :
    Drained fs (logfs_flush fs).2 := by
  have h := flush_all_post fs hB
  obtain ⟨m, q, hd, t, l, rq, rs, re, -, -, -, -⟩ := flushAllPost_fields h
  exact ⟨m, q, hd, t, l, rq, rs, re, h.block, h.size, h.limit, h.old, h.new⟩

theorem reader_function_drained (fs : logfs) (hB : 0 < fs.block_size) :
    Drained fs (reader_function fs) := by
  have h := logfs_flush_drained { fs with write_allow := 1, read_allow := 0 } hB
  exact ⟨h.mem, h.write_queue, h.write_head, h.write_tail, h.write_limit, h.read_queue,
    h.read_start_addr, h.read_end_addr, h.block, h.size, h.limit, h.old, h.new⟩

theorem drained_block_size {fs r : logfs} (h : Drained fs r) : r.block_size = fs.block_size := by
  simp only [logfs.block_size, device_block]; exact h.block

theorem drained_pending {fs r : logfs} (h : Drained fs r) : pending r = 0 := by
  simp [LogFS.pending, h.write_head, h.write_tail]

theorem drained_counters {fs r : logfs} {t : Nat} (h : Drained fs r) (hc : counters_ok fs t) :
    counters_ok r t := by
  obtain ⟨h1, h2, h3⟩ := hc
  refine ⟨?_, ?_, ?_⟩
  · rw [h.write_queue, h.write_head]; exact h1
  · rw [h.write_queue, h.write_tail]; exact h1
  · rw [h.limit, drained_pending h]; omega

/-- The copy of `logfs_append` into the buffer adds at most `len` pending bytes. -/
theorem append_counters (fs : logfs) (buf : Bytes) (len t : Nat) (hB : 0 < fs.block_size)
    (hc : counters_ok fs t) :
    counters_ok (logfs_append fs buf len).2 (t + len) ∧
    fs.device_limit ≤ (logfs_append fs buf len).2.device_limit ∧
    (logfs_append fs buf len).2.block_size = fs.block_size := by
  have hd := reader_function_drained fs hB
  have hc2 := drained_counters hd hc
  have hl := hd.limit
  have hb := drained_block_size hd
  simp only [logfs_append, logfs_append_copy]
  generalize reader_function fs = r at *
  obtain ⟨a1, a2, a3⟩ := hc
  obtain ⟨b1, b2, b3⟩ := hc2
  split_ifs <;> simp only [counters_ok, pending, logfs.block_size, device_block] at * <;>
    (refine ⟨⟨?_, ?_, ?_⟩, ?_, ?_⟩) <;> first | omega | rfl | assumption | (split_ifs at * <;> omega)

theorem logfs_read_state (fs : logfs) (buf : Bytes) (off len : Nat) :
    (logfs_read fs buf off len).2.1 =
      if (off + len) % U64 > fs.read_end_addr ∨ off < fs.read_start_addr then
        logfs_read_refill fs off len
      else fs := by
  simp only [logfs_read]
  split_ifs <;> rfl

theorem refill_counters (fs : logfs) (off len t : Nat) (hB : 0 < fs.block_size)
    (hc : counters_ok fs t) :
    counters_ok (logfs_read_refill fs off len) t ∧
    fs.device_limit ≤ (logfs_read_refill fs off len).device_limit ∧
    (logfs_read_refill fs off len).block_size = fs.block_size ∧
    (logfs_read_refill fs off len).read_end_addr ≤ (logfs_read_refill fs off len).device_limit := by
  have hd := reader_function_drained fs hB
  have hc2 := drained_counters hd hc
  have hl := hd.limit
  have hb := drained_block_size hd
  simp only [logfs_read_refill]
  generalize reader_function fs = r at *
  refine ⟨hc2, by omega, hb, ?_⟩
  split_ifs <;> omega

theorem step_counters (fs : logfs) (c : call) (t : Nat) (hB : 0 < fs.block_size)
    (hc : counters_ok fs t) :
    counters_ok (step fs c) (t + appended [c]) ∧
    fs.device_limit ≤ (step fs c).device_limit ∧
    (step fs c).block_size = fs.block_size := by
  cases c with
  | append buf len =>
    simpa [step, appended, Nat.add_comm] using append_counters fs buf len t hB hc
  | flush =>
    have hd := logfs_flush_drained fs hB
    exact ⟨by simpa [step, appended] using drained_counters hd hc,
      by simp only [step]; rw [hd.limit]; omega, drained_block_size hd⟩
  | read buf off len =>
    simp only [step, appended, Nat.add_zero, logfs_read_state]
    split_ifs
    · obtain ⟨h1, h2, h3, -⟩ := refill_counters fs off len t hB hc
      exact ⟨h1, h2, h3⟩
    · exact ⟨hc, le_refl _, rfl⟩

theorem appended_append (cs ds : List call) : appended (cs ++ ds) = appended cs + appended ds := by
  induction cs with
  | nil => simp [appended]
  | cons c cs ih => cases c <;> simp [appended, ih, Nat.add_assoc]

theorem run_counters (cs : List call) (fs : logfs) (t : Nat) (hB : 0 < fs.block_size)
    (hc : counters_ok fs t) :
    counters_ok (run fs cs) (t + appended cs) ∧ (run fs cs).block_size = fs.block_size ∧
    fs.device_limit ≤ (run fs cs).device_limit := by
  induction cs generalizing fs t with
  | nil => exact ⟨by simpa [run, appended] using hc, rfl, le_refl _⟩
  | cons c cs ih =>
    obtain ⟨h1, h2, h3⟩ := step_counters fs c t hB hc
    obtain ⟨i1, i2, i3⟩ := ih (step fs c) (t + appended [c]) (by rw [h3]; exact hB) h1
    refine ⟨?_, ?_, ?_⟩
    · have e : t + appended (c :: cs) = t + appended [c] + appended cs := by
        have := appended_append [c] cs
        simp only [List.singleton_append] at this
        omega
      rw [e]; exact i1
    · rw [← h3]; exact i2
    · exact le_trans h2 i3

theorem open_counters (dev : device) (k : Nat) : counters_ok (logfs_open dev k) 0 := by
  simp [counters_ok, logfs_open, pending]

/-- C9: along every run of `logfs_append`, `logfs_flush` and `logfs_read`
calls from a freshly opened log with a positive block size, one more call
never decreases `device_limit`, and `device_limit` is at most the number of
bytes passed to `logfs_append` so far. -/
theorem device_limit_monotone_and_bounded (dev : device) (k : Nat) (cs : List call) (c : call)
    (hB : 0 < device_block dev) :
    (run (logfs_open dev k) cs).device_limit ≤ (step (run (logfs_open dev k) cs) c).device_limit ∧
    (run (logfs_open dev k) cs).device_limit ≤ appended cs := by
  obtain ⟨h1, h2, -⟩ := run_counters cs (logfs_open dev k) 0 hB (open_counters dev k)
  obtain ⟨-, h4, -⟩ := step_counters (run (logfs_open dev k) cs) c _ (by rw [h2]; exact hB) h1
  refine ⟨h4, ?_⟩
  have := h1.2.2
  omega

/-- Witness of C9 on `demo_device`: after an append of 5 bytes and a flush,
a further append keeps `device_limit`, which is at most 5. -/
theorem device_limit_monotone_and_bounded_witness :
    0 < device_block demo_device ∧
    ((run (logfs_open demo_device 2) [call.append fresh 5, call.flush]).device_limit
      ≤ (step (run (logfs_open demo_device 2) [call.append fresh 5, call.flush])
          (call.append fresh 3)).device_limit ∧
     (run (logfs_open demo_device 2) [call.append fresh 5, call.flush]).device_limit
      ≤ appended [call.append fresh 5, call.flush]) :=
  ⟨by decide,
   device_limit_monotone_and_bounded demo_device 2 [call.append fresh 5, call.flush]
     (call.append fresh 3) (by decide)⟩

/-! ## Length check of `logfs_append` -/

/-- C7, evaluation at the failing input: with `device_limit = 6`, the call
`logfs_read(5, 2)` ends at offset 7, beyond `device_limit`; the refill clips the
window to `4 .. 6`, the test of line 167 compares `len = 2` with the length of
the window, and the call returns 0 and stores the device byte of offset 6 in
the caller's buffer. -/
theorem logfs_read_past_limit_succeeds :
    six_byte_log.device_limit = 6 ∧ 5 + 2 > six_byte_log.device_limit ∧
    (logfs_read six_byte_log (fun _ => 99) 5 2).1 = some 0 ∧
    (logfs_read six_byte_log (fun _ => 99) 5 2).2.2 1 = six_byte_log.device.data 6 ∧
    (logfs_read six_byte_log (fun _ => 99) 5 2).2.2 1 ≠ 99 := by
  decide

theorem refill_size (fs : logfs) (off len : Nat) (hB : 0 < fs.block_size) :
    (logfs_read_refill fs off len).device.size = fs.device.size := by
  have hd := reader_function_drained fs hB
  simp only [logfs_read_refill]
  exact hd.size

/-- The guard of lines 161-165 of `logfs_read`: with a positive block size, a
call that fits the read cache and whose `off + len` (below `2 ^ 64`) exceeds
the device size returns -1 and leaves the caller's buffer as it was. -/
theorem logfs_read_past_device_size (fs : logfs) (buf : Bytes) (off len : Nat)
    (hB : 0 < fs.block_size) (hw : off + len < U64)
    (_hfit : off % fs.block_size + len ≤ fs.block_size * RCACHE_BLOCKS)
    (hs : device_size fs.device < off + len) :
    (logfs_read fs buf off len).1 = some (-1) ∧ (logfs_read fs buf off len).2.2 = buf := by
  have hsz := refill_size fs off len hB
  have hmod : (len + off) % U64 = off + len := by
    rw [Nat.add_comm len off]; exact Nat.mod_eq_of_lt hw
  simp only [logfs_read, device_size] at *
  split_ifs <;> first | exact ⟨rfl, rfl⟩ | omega

/-- The guard of lines 161-165 on `six_byte_log`: the device has 4096 bytes. -/
theorem logfs_read_past_device_size_witness :
    0 < six_byte_log.block_size ∧ 4090 + 10 < U64 ∧
    4090 % six_byte_log.block_size + 10 ≤ six_byte_log.block_size * RCACHE_BLOCKS ∧
    device_size six_byte_log.device < 4090 + 10 ∧
    ((logfs_read six_byte_log fresh 4090 10).1 = some (-1) ∧
     (logfs_read six_byte_log fresh 4090 10).2.2 = fresh) :=
  ⟨by decide, by decide, by decide, by decide,
   logfs_read_past_device_size six_byte_log fresh 4090 10 (by decide) (by decide) (by decide)
     (by decide)⟩

/-! ## The window of the read cache -/

/-- C8, evaluation at the failing input: on a freshly opened log over
`demo_device` (`device_limit = 0`), the refill of `logfs_read(8, 1)` sets
`read_start_addr = 8` and clips `read_end_addr` from 12 to `device_limit = 0`:
the window starts above its end.  The call then passes the test of line 167,
whose unsigned difference `read_end_addr - read_start_addr` wraps, returns 0
and hands out the device byte of offset 8. -/
theorem read_window_start_above_end :
    (run (logfs_open demo_device 2) [call.read fresh 8 1]).read_start_addr = 8 ∧
    (run (logfs_open demo_device 2) [call.read fresh 8 1]).read_end_addr = 0 ∧
    (run (logfs_open demo_device 2) [call.read fresh 8 1]).device_limit = 0 ∧
    ¬ ((run (logfs_open demo_device 2) [call.read fresh 8 1]).read_start_addr
        ≤ (run (logfs_open demo_device 2) [call.read fresh 8 1]).read_end_addr) ∧
    (logfs_read (logfs_open demo_device 2) (fun _ => 99) 8 1).1 = some 0 ∧
    (logfs_read (logfs_open demo_device 2) (fun _ => 99) 8 1).2.2 0 = demo_device.data 8 := by
  decide

/-- Rounding up to a block boundary stays below a bound that is itself a
multiple of the block size. -/
theorem round_up_le (x B n : Nat) (hB : 0 < B) (hx : x ≤ B * n) (hm : 0 < x % B) :
    x - x % B + B ≤ B * n := by
  have h1 := Nat.div_add_mod x B
  have h2 : x % B < B := Nat.mod_lt _ hB
  have h3 : x / B < n := by
    apply Nat.div_lt_of_lt_mul
    rcases Nat.lt_or_ge x (B * n) with h | h
    · exact h
    · have : x = B * n := le_antisymm hx h
      rw [this, Nat.mul_mod_right] at hm
      omega
  have h4 : B * (x / B + 1) ≤ B * n := Nat.mul_le_mul_left B h3
  have h5 : B * (x / B + 1) = B * (x / B) + B := by ring
  omega

theorem refill_read_end (fs : logfs) (off len : Nat) (hB : 0 < fs.block_size) :
    (logfs_read_refill fs off len).read_end_addr ≤ (logfs_read_refill fs off len).device_limit ∧
    (logfs_read_refill fs off len).block_size = fs.block_size := by
  have hd := reader_function_drained fs hB
  have hb := drained_block_size hd
  simp only [logfs_read_refill]
  generalize reader_function fs = r at *
  refine ⟨?_, hb⟩
  split_ifs <;> omega

theorem step_read_end (fs : logfs) (c : call) (hB : 0 < fs.block_size)
    (h : fs.read_end_addr ≤ fs.device_limit) :
    (step fs c).read_end_addr ≤ (step fs c).device_limit ∧
    (step fs c).block_size = fs.block_size := by
  cases c with
  | append buf len =>
    have hd := reader_function_drained fs hB
    have h1 := hd.read_end_addr
    have h2 := hd.limit
    have h3 := drained_block_size hd
    simp only [step, logfs_append, logfs_append_copy]
    generalize reader_function fs = r at *
    split_ifs <;> refine ⟨?_, ?_⟩ <;> first | exact h3 | rfl | (simp only []; omega)
  | flush =>
    have hd := logfs_flush_drained fs hB
    refine ⟨?_, drained_block_size hd⟩
    simp only [step]
    rw [hd.read_end_addr, hd.limit]; omega
  | read buf off len =>
    simp only [step, logfs_read_state]
    split_ifs
    · exact refill_read_end fs off len hB
    · exact ⟨h, rfl⟩

theorem run_read_end (cs : List call) (fs : logfs) (hB : 0 < fs.block_size)
    (h : fs.read_end_addr ≤ fs.device_limit) :
    (run fs cs).read_end_addr ≤ (run fs cs).device_limit := by
  induction cs generalizing fs with
  | nil => exact h
  | cons c cs ih =>
    obtain ⟨h1, h2⟩ := step_read_end fs c hB h
    exact ih (step fs c) (by rw [h2]; exact hB) h1

/-- The window installed by a refill for a read that satisfies `read_in_log`. -/
theorem refill_window (fs : logfs) (off len : Nat) (hB : 0 < fs.block_size)
    (h1 : off - off % fs.block_size ≤ (reader_function fs).device_limit)
    (h2 : off % fs.block_size + len ≤ fs.block_size * RCACHE_BLOCKS)
    (h3 : off + len + fs.block_size ≤ U64) :
    (logfs_read_refill fs off len).read_start_addr ≤ (logfs_read_refill fs off len).read_end_addr ∧
    (logfs_read_refill fs off len).read_end_addr - (logfs_read_refill fs off len).read_start_addr
      ≤ fs.block_size * RCACHE_BLOCKS := by
  have hd := reader_function_drained fs hB
  have hb := drained_block_size hd
  have hl := hd.limit
  simp only [logfs_read_refill]
  generalize reader_function fs = r at *
  rw [hb]
  generalize fs.block_size = B at *
  have hm : off % B ≤ off := Nat.mod_le _ _
  have hm2 : off % B < B := Nat.mod_lt _ hB
  have e1 : (len + off % B) % U64 = len + off % B := Nat.mod_eq_of_lt (by omega)
  rw [e1]
  have hx2 : (len + off % B) % B < B := Nat.mod_lt _ hB
  have hx3 : (len + off % B) % B ≤ len + off % B := Nat.mod_le _ _
  by_cases hp : (len + off % B) % B > 0
  · have hr := round_up_le (len + off % B) B RCACHE_BLOCKS hB (by omega) hp
    have e2 : (len + off % B - (len + off % B) % B + B) % U64
        = len + off % B - (len + off % B) % B + B := Nat.mod_eq_of_lt (by omega)
    simp only [hp, if_true, e2]
    have e3 : (off - off % B + (len + off % B - (len + off % B) % B + B)) % U64
        = off - off % B + (len + off % B - (len + off % B) % B + B) := Nat.mod_eq_of_lt (by omega)
    rw [e3]
    split_ifs <;> constructor <;> omega
  · simp only [hp, if_false]
    have e3 : (off - off % B + (len + off % B)) % U64 = off - off % B + (len + off % B) :=
      Nat.mod_eq_of_lt (by omega)
    rw [e3]
    split_ifs <;> constructor <;> omega

theorem step_window (fs : logfs) (c : call) (hB : 0 < fs.block_size)
    (hw : fs.read_start_addr ≤ fs.read_end_addr ∧
      fs.read_end_addr - fs.read_start_addr ≤ fs.block_size * RCACHE_BLOCKS)
    (hc : read_in_log fs c = true) :
    (step fs c).read_start_addr ≤ (step fs c).read_end_addr ∧
    (step fs c).read_end_addr - (step fs c).read_start_addr ≤ fs.block_size * RCACHE_BLOCKS := by
  cases c with
  | append buf len =>
    have hd := reader_function_drained fs hB
    have h1 := hd.read_end_addr
    have h2 := hd.read_start_addr
    simp only [step, logfs_append, logfs_append_copy]
    generalize reader_function fs = r at *
    split_ifs <;> simp only [] <;> omega
  | flush =>
    have hd := logfs_flush_drained fs hB
    simp only [step]
    rw [hd.read_end_addr, hd.read_start_addr]; exact hw
  | read buf off len =>
    simp only [read_in_log, decide_eq_true_eq] at hc
    simp only [step, logfs_read_state]
    split_ifs
    · exact refill_window fs off len hB hc.1 hc.2.1 hc.2.2
    · exact hw

theorem step_block_size (fs : logfs) (c : call) (hB : 0 < fs.block_size) :
    (step fs c).block_size = fs.block_size := by
  cases c with
  | append buf len =>
    have h3 := drained_block_size (reader_function_drained fs hB)
    simp only [step, logfs_append, logfs_append_copy]
    generalize reader_function fs = r at *
    split_ifs <;> first | exact h3 | rfl
  | flush => exact drained_block_size (logfs_flush_drained fs hB)
  | read buf off len =>
    simp only [step, logfs_read_state]
    split_ifs
    · exact (refill_read_end fs off len hB).2
    · rfl

theorem run_block_size (cs : List call) (fs : logfs) (hB : 0 < fs.block_size) :
    (run fs cs).block_size = fs.block_size := by
  induction cs generalizing fs with
  | nil => rfl
  | cons c cs ih =>
    have hb := step_block_size fs c hB
    exact (ih (step fs c) (by rw [hb]; exact hB)).trans hb

theorem run_window (cs : List call) (fs : logfs) (hB : 0 < fs.block_size)
    (hw : fs.read_start_addr ≤ fs.read_end_addr ∧
      fs.read_end_addr - fs.read_start_addr ≤ fs.block_size * RCACHE_BLOCKS)
    (hc : reads_in_log fs cs = true) :
    (run fs cs).read_start_addr ≤ (run fs cs).read_end_addr ∧
    (run fs cs).read_end_addr - (run fs cs).read_start_addr ≤ fs.block_size * RCACHE_BLOCKS := by
  induction cs generalizing fs with
  | nil => exact hw
  | cons c cs ih =>
    simp only [reads_in_log, Bool.and_eq_true] at hc
    have hb := step_block_size fs c hB
    have := ih (step fs c) (by rw [hb]; exact hB)
      (by rw [hb]; exact step_window fs c hB hw hc.1) hc.2
    rw [hb] at this
    exact this

/-- The window of the read cache along a run: in every state reached from a
freshly opened log with a positive block size by `logfs_append`, `logfs_flush`
and `logfs_read` calls, `read_end_addr ≤ device_limit`; and when the block of
every read of the run starts at or below the `device_limit` that its forced
flush leaves, fits the read cache and stays clear of 64-bit wrap-around
(`reads_in_log`), also `read_start_addr ≤ read_end_addr` and
`read_end_addr - read_start_addr ≤ block_size * 256`. -/
theorem read_window_invariant (dev : device) (k : Nat) (cs : List call)
    (hB : 0 < device_block dev) :
    (run (logfs_open dev k) cs).read_end_addr ≤ (run (logfs_open dev k) cs).device_limit ∧
    (reads_in_log (logfs_open dev k) cs = true →
      (run (logfs_open dev k) cs).read_start_addr ≤ (run (logfs_open dev k) cs).read_end_addr ∧
      (run (logfs_open dev k) cs).read_end_addr - (run (logfs_open dev k) cs).read_start_addr
        ≤ device_block dev * RCACHE_BLOCKS) := by
  refine ⟨run_read_end cs (logfs_open dev k) hB (Nat.le_refl _), fun hc => ?_⟩
  exact run_window cs (logfs_open dev k) hB ⟨Nat.le_refl _, Nat.zero_le _⟩ hc

/-- The window of the read cache on `demo_device`: six bytes are appended and
bytes 4 and 5 are read, after the forced flush of the refill. -/
theorem read_window_invariant_witness :
    0 < device_block demo_device ∧
    reads_in_log (logfs_open demo_device 2) [call.append fresh 6, call.read fresh 4 2] = true ∧
    (run (logfs_open demo_device 2) [call.append fresh 6, call.read fresh 4 2]).read_end_addr
      ≤ (run (logfs_open demo_device 2) [call.append fresh 6, call.read fresh 4 2]).device_limit ∧
    (run (logfs_open demo_device 2) [call.append fresh 6, call.read fresh 4 2]).read_start_addr
      ≤ (run (logfs_open demo_device 2) [call.append fresh 6, call.read fresh 4 2]).read_end_addr ∧
    (run (logfs_open demo_device 2) [call.append fresh 6, call.read fresh 4 2]).read_end_addr
      - (run (logfs_open demo_device 2) [call.append fresh 6, call.read fresh 4 2]).read_start_addr
      ≤ device_block demo_device * RCACHE_BLOCKS :=
  ⟨by decide, by decide,
   (read_window_invariant demo_device 2 [call.append fresh 6, call.read fresh 4 2]
     (by decide)).1,
   (read_window_invariant demo_device 2 [call.append fresh 6, call.read fresh 4 2]
     (by decide)).2 (by decide)⟩

/-! ## An append of exactly the capacity of the write buffer -/

/-- C1, evaluation at the failing input: on `disk512`, after an append of 1
byte, an append of 16384 bytes (the capacity) and a flush, `logfs_read(0,
16385)` does not return 0: control reaches the end of the function and the
caller's buffer is left as it was. -/
theorem round_trip_fails_at_capacity :
    16384 ≤ disk512.block * WCACHE_BLOCKS ∧
    appended (capacity_calls ++ [call.flush]) = 16385 ∧
    16385 ≤ disk512.block * RCACHE_BLOCKS ∧ 16385 ≤ device_size disk512 ∧
    (logfs_read (step capacity_log call.flush) (fun _ => 99) 0 16385).1 = none ∧
    (logfs_read (step capacity_log call.flush) (fun _ => 99) 0 16385).2.2 1 = 99 := by
  decide

/-- C2, evaluation at the failing input: on `disk512`, after an append of 1
byte, an append of 16384 bytes (the capacity) and a flush, `device_limit` is 1
although 16385 bytes were appended; the scenario of the claim itself (10
bytes, flush, 600 bytes, flush) gives 10 and then 610. -/
theorem device_limit_misses_capacity_append :
    appended (capacity_calls ++ [call.flush]) = 16385 ∧
    (run (logfs_open disk512 3) (capacity_calls ++ [call.flush])).device_limit = 1 ∧
    (run (logfs_open disk512 3) (capacity_calls ++ [call.flush])).write_tail
      = (run (logfs_open disk512 3) (capacity_calls ++ [call.flush])).write_head ∧
    (run (logfs_open disk512 3) [call.append fresh 10, call.flush]).device_limit = 10 ∧
    (run (logfs_open disk512 3)
      [call.append fresh 10, call.flush, call.append fresh 600, call.flush]).device_limit = 610 := by
  decide

/-- C10, evaluation at the failing input: in `capacity_log` the 16384 bytes of
the second append fill the buffer, so that `write_head = write_tail` and the
buffer counts as empty.  Its first byte sits at address `write_head`, and only
one byte is durable.  The next append of one byte forces no flush and
overwrites that address, while `device_limit` is still 1. -/
theorem append_overwrites_unflushed_byte :
    capacity_log.write_head = capacity_log.write_tail ∧ pending capacity_log = 0 ∧
    capacity_log.device_limit = 1 ∧
    capacity_log.mem capacity_log.write_head = 1 ∧
    (logfs_append capacity_log (fun _ => 200) 1).2.mem capacity_log.write_head = 200 ∧
    (logfs_append capacity_log (fun _ => 200) 1).2.device_limit = 1 ∧
    (logfs_append capacity_log (fun _ => 200) 1).2.device.data 1 = 0 := by
  decide

/-! ## Contents of the log -/

theorem drained_inv {fs r : logfs} {data : Bytes} {t : Nat} (h : Drained fs r)
    (hi : LogInv fs data t) : LogInv r data t ∧ pending r = 0 := by
  have hp := drained_pending h
  refine ⟨⟨?_, ?_, ?_, ?_, ?_, ?_, ?_, ?_⟩, hp⟩
  · rw [drained_block_size h]; exact hi.block
  · rw [h.write_limit, h.write_queue, drained_block_size h]; exact hi.limit
  · rw [h.write_limit, h.write_queue, h.write_head]; exact hi.head
  · rw [h.write_limit, h.write_queue, h.write_tail]; exact hi.head
  · rw [hp, drained_block_size h]
    have := hi.room
    omega
  · rw [hp, h.limit]; exact hi.count
  · intro i hlt
    rw [h.limit] at hlt
    by_cases h1 : i < fs.device_limit
    · rw [h.old i h1]; exact hi.durable i h1
    · have := h.new (i - fs.device_limit) (by omega)
      rw [show fs.device_limit + (i - fs.device_limit) = i by omega] at this
      rw [this, hi.queued _ (by omega)]
      congr 1; omega
  · intro i hlt
    rw [hp] at hlt
    omega


/-- The copy of `logfs_append` keeps the log invariant when it leaves the
buffer short of full: the new bytes follow the pending ones. -/
theorem append_copy_inv (fs : logfs) (buf data : Bytes) (len t : Nat)
    (hi : LogInv fs data t) (hroom : pending fs + len < fs.block_size * WCACHE_BLOCKS) :
    LogInv (logfs_append_copy fs buf len).2 (log_append data t buf) (t + len) := by
  obtain ⟨hb, hl, ⟨hh1, hh2⟩, ⟨ht1, ht2⟩, hr, hc, hd, hq⟩ := hi
  have hdur : ∀ i, i < fs.device_limit → fs.device.data i = log_append data t buf i := by
    intro i hlt
    simp only [log_append]
    rw [if_pos (by omega)]
    exact hd i hlt
  by_cases hw : fs.write_head < fs.write_tail
  · -- the pending region wraps; the copy fits between head and tail
    simp only [pending, pending_byte, hw, if_true] at hroom hr hc hq
    have hlin : fs.write_head + len ≤ fs.write_limit := by omega
    have hw2 : fs.write_head + len < fs.write_tail := by omega
    simp only [logfs_append_copy, hlin, if_true]
    refine ⟨hb, hl, ⟨?_, ?_⟩, ⟨ht1, ht2⟩, ?_, ?_, hdur, ?_⟩
    · show fs.write_queue ≤ fs.write_head + len; omega
    · exact hlin
    · simp only [pending, hw2, if_true]
      show fs.write_limit - fs.write_tail + (fs.write_head + len - fs.write_queue)
        < fs.block_size * WCACHE_BLOCKS
      omega
    · simp only [pending, hw2, if_true]; omega
    · intro i hlt
      simp only [pending, hw2, if_true] at hlt
      simp only [pending_byte, hw2, if_true, memcpy, log_append]
      by_cases h1 : i < fs.write_limit - fs.write_tail
      · have := hq i (by omega)
        simp only [h1, if_true] at this ⊢
        rw [if_neg (by omega), if_pos (by omega)]
        exact this
      · simp only [h1, if_false]
        by_cases h2 : i < fs.write_limit - fs.write_tail + (fs.write_head - fs.write_queue)
        · have := hq i h2
          simp only [h1, if_false] at this
          rw [if_neg (by omega), if_pos (by omega)]
          exact this
        · rw [if_pos (by omega), if_neg (by omega)]
          congr 1; omega
  · simp only [pending, pending_byte, hw, if_false] at hroom hr hc hq
    by_cases hlin : fs.write_head + len ≤ fs.write_limit
    · have hw2 : ¬ fs.write_head + len < fs.write_tail := by omega
      simp only [logfs_append_copy, hlin, if_true]
      refine ⟨hb, hl, ⟨?_, ?_⟩, ⟨ht1, ht2⟩, ?_, ?_, hdur, ?_⟩
      · show fs.write_queue ≤ fs.write_head + len; omega
      · exact hlin
      · simp only [pending, hw2, if_false]
        show fs.write_head + len - fs.write_tail < fs.block_size * WCACHE_BLOCKS
        omega
      · simp only [pending, hw2, if_false]; omega
      · intro i hlt
        simp only [pending, hw2, if_false] at hlt
        simp only [pending_byte, hw2, if_false, memcpy, log_append]
        by_cases h2 : i < fs.write_head - fs.write_tail
        · rw [if_neg (by omega), if_pos (by omega)]
          exact hq i h2
        · rw [if_pos (by omega), if_neg (by omega)]
          congr 1; omega
    · -- the copy is split at the end of the buffer
      have hw2 : fs.write_queue + (len - (fs.write_limit - fs.write_head)) < fs.write_tail := by
        omega
      simp only [logfs_append_copy, hlin, if_false]
      refine ⟨hb, hl, ⟨?_, ?_⟩, ⟨ht1, ht2⟩, ?_, ?_, hdur, ?_⟩
      · show fs.write_queue ≤ fs.write_queue + (len - (fs.write_limit - fs.write_head)); omega
      · show fs.write_queue + (len - (fs.write_limit - fs.write_head)) ≤ fs.write_limit; omega
      · simp only [pending, hw2, if_true]
        show fs.write_limit - fs.write_tail
          + (fs.write_queue + (len - (fs.write_limit - fs.write_head)) - fs.write_queue)
          < fs.block_size * WCACHE_BLOCKS
        omega
      · simp only [pending, hw2, if_true]; omega
      · intro i hlt
        simp only [pending, hw2, if_true] at hlt
        simp only [pending_byte, hw2, if_true, memcpy, log_append]
        by_cases h1 : i < fs.write_limit - fs.write_tail
        · simp only [h1, if_true]
          by_cases h2 : i < fs.write_head - fs.write_tail
          · rw [if_neg (by omega), if_neg (by omega), if_pos (by omega)]
            exact hq i h2
          · rw [if_neg (by omega), if_pos (by omega), if_neg (by omega)]
            congr 1; omega
        · simp only [h1, if_false]
          rw [if_pos (by omega), if_neg (by omega)]
          congr 1; omega

theorem logInv_congr {fs : logfs} {data data2 : Bytes} {t : Nat}
    (he : ∀ i, i < t → data i = data2 i) (hi : LogInv fs data t) : LogInv fs data2 t := by
  obtain ⟨hb, hl, hh, ht, hr, hc, hd, hq⟩ := hi
  refine ⟨hb, hl, hh, ht, hr, hc, ?_, ?_⟩
  · intro i hlt
    rw [hd i hlt]; exact he i (by omega)
  · intro i hlt
    rw [hq i hlt]; exact he _ (by omega)

/-- An append shorter than the write buffer keeps the log invariant. -/
theorem append_inv (fs : logfs) (buf data : Bytes) (len t : Nat)
    (hi : LogInv fs data t) (hlen : len < fs.block_size * WCACHE_BLOCKS) :
    LogInv (logfs_append fs buf len).2 (log_append data t buf) (t + len) := by
  by_cases hf : len ≥ (if fs.write_head < fs.write_tail then fs.write_tail - fs.write_head
      else fs.write_limit - fs.write_queue - (fs.write_head - fs.write_tail))
  · simp only [logfs_append, hf, if_true]
    have hd := reader_function_drained fs hi.block
    obtain ⟨h1, h2⟩ := drained_inv hd hi
    apply append_copy_inv _ _ _ _ _ h1
    rw [h2, drained_block_size hd]; omega
  · simp only [logfs_append, hf, if_false]
    apply append_copy_inv _ _ _ _ _ hi
    obtain ⟨hb, hl, ⟨hh1, hh2⟩, ⟨ht1, ht2⟩, hr, hc, hd, hq⟩ := hi
    simp only [pending] at hr ⊢
    split_ifs at hf hr ⊢ <;> omega

theorem refill_inv (fs : logfs) (off len : Nat) (data : Bytes) (t : Nat)
    (hi : LogInv fs data t) :
    LogInv (logfs_read_refill fs off len) data t ∧ pending (logfs_read_refill fs off len) = 0 := by
  have hd := reader_function_drained fs hi.block
  obtain ⟨⟨hb, hl, hh, ht, hr, hc, hdu, hq⟩, h2⟩ := drained_inv hd hi
  exact ⟨⟨hb, hl, hh, ht, hr, hc, hdu, hq⟩, h2⟩

theorem step_inv (fs : logfs) (c : call) (data : Bytes) (t : Nat)
    (hi : LogInv fs data t)
    (hc : appends_below (fs.block_size * WCACHE_BLOCKS) [c] = true) :
    LogInv (step fs c)
      (fun i => if i < t then data i else (call_bytes c).getD (i - t) 0)
      (t + (call_bytes c).length) := by
  cases c with
  | append buf len =>
    simp only [appends_below, Bool.and_true, decide_eq_true_eq] at hc
    simp only [step, call_bytes, List.length_map, List.length_range]
    refine logInv_congr ?_ (append_inv fs buf data len t hi hc)
    intro i hlt
    simp only [log_append]
    split_ifs with h1
    · rfl
    · have h2 : i - t < len := by omega
      simp [List.getD_eq_getElem?_getD, h2]
  | flush =>
    have h := (drained_inv (logfs_flush_drained fs hi.block) hi).1
    simp only [step, call_bytes, List.length_nil, Nat.add_zero]
    exact logInv_congr (fun i hlt => by simp [hlt]) h
  | read buf off len =>
    simp only [step, call_bytes, List.length_nil, Nat.add_zero, logfs_read_state]
    split_ifs
    · exact logInv_congr (fun i hlt => by simp [hlt]) (refill_inv fs off len data t hi).1
    · exact logInv_congr (fun i hlt => by simp [hlt]) hi

theorem appends_below_cons (C : Nat) (c : call) (cs : List call)
    (h : appends_below C (c :: cs) = true) :
    appends_below C [c] = true ∧ appends_below C cs = true := by
  cases c <;> simp_all [appends_below]

/-- A run whose appends are shorter than the write buffer keeps the log
invariant: the log is the old log followed by the appended bytes. -/
theorem run_inv (cs : List call) (fs : logfs) (data : Bytes) (t : Nat)
    (hi : LogInv fs data t)
    (hc : appends_below (fs.block_size * WCACHE_BLOCKS) cs = true) :
    LogInv (run fs cs)
      (fun i => if i < t then data i else (log_bytes cs).getD (i - t) 0)
      (t + (log_bytes cs).length) := by
  induction cs generalizing fs data t with
  | nil =>
    simp only [run, List.foldl_nil, log_bytes, List.length_nil, Nat.add_zero]
    exact logInv_congr (fun i hlt => by simp [hlt]) hi
  | cons c cs ih =>
    obtain ⟨h1, h2⟩ := appends_below_cons _ c cs hc
    have hs := step_inv fs c data t hi h1
    have hb := step_block_size fs c hi.block
    have := ih (step fs c) _ _ hs (by rw [hb]; exact h2)
    simp only [log_bytes, List.length_append]
    rw [← Nat.add_assoc]
    refine logInv_congr ?_ this
    intro i hlt
    by_cases h3 : i < t
    · have h4 : i < t + (call_bytes c).length := by omega
      simp only [h3, h4, if_true]
    · by_cases h4 : i < t + (call_bytes c).length
      · simp only [h3, h4, if_true, if_false]
        rw [List.getD_append _ _ _ _ (by omega)]
      · simp only [h3, h4, if_false]
        rw [List.getD_append_right _ _ _ _ (by omega)]
        congr 1; omega

theorem open_inv (dev : device) (k : Nat) (hB : 0 < device_block dev) :
    LogInv (logfs_open dev k) fresh 0 := by
  refine ⟨hB, rfl, ⟨Nat.le_refl _, ?_⟩, ⟨Nat.le_refl _, ?_⟩, ?_, ?_, ?_, ?_⟩
  · simp [logfs_open]
  · simp [logfs_open]
  · simp only [pending, logfs_open, lt_irrefl, if_false, Nat.sub_self, logfs.block_size]
    simp only [WCACHE_BLOCKS]; omega
  · simp [pending, logfs_open]
  · intro i hlt
    simp [logfs_open] at hlt
  · intro i hlt
    simp [pending, logfs_open] at hlt

theorem writes_below_appends (C : Nat) (cs : List call) (h : writes_below C cs = true) :
    appends_below C cs = true := by
  induction cs with
  | nil => rfl
  | cons c cs ih => cases c <;> simp_all [writes_below, appends_below]

theorem step_write_window (fs : logfs) (c : call) (C : Nat) (hB : 0 < fs.block_size)
    (hw : writes_below C [c] = true) :
    (step fs c).read_start_addr = fs.read_start_addr ∧
    (step fs c).read_end_addr = fs.read_end_addr := by
  cases c with
  | append buf len =>
    have hd := reader_function_drained fs hB
    have h1 := hd.read_end_addr
    have h2 := hd.read_start_addr
    simp only [step, logfs_append, logfs_append_copy]
    generalize reader_function fs = r at *
    split_ifs <;> refine ⟨?_, ?_⟩ <;> first | rfl | exact h2 | exact h1
  | flush =>
    have hd := logfs_flush_drained fs hB
    exact ⟨hd.read_start_addr, hd.read_end_addr⟩
  | read buf off len => simp [writes_below] at hw

theorem writes_below_cons (C : Nat) (c : call) (cs : List call)
    (h : writes_below C (c :: cs) = true) :
    writes_below C [c] = true ∧ writes_below C cs = true := by
  cases c <;> simp_all [writes_below]

theorem run_write_window (cs : List call) (fs : logfs) (C : Nat) (hB : 0 < fs.block_size)
    (hw : writes_below C cs = true) :
    (run fs cs).read_start_addr = fs.read_start_addr ∧
    (run fs cs).read_end_addr = fs.read_end_addr := by
  induction cs generalizing fs with
  | nil => exact ⟨rfl, rfl⟩
  | cons c cs ih =>
    obtain ⟨h1, h2⟩ := writes_below_cons C c cs hw
    obtain ⟨h3, h4⟩ := step_write_window fs c C hB h1
    obtain ⟨h5, h6⟩ := ih (step fs c) (by rw [step_block_size fs c hB]; exact hB) h2
    exact ⟨h5.trans h3, h6.trans h4⟩

/-- A read of the whole log, in a state with nothing pending and an empty
cache window, returns 0 and hands out the bytes of the log. -/
theorem read_whole_log (fs : logfs) (buf data : Bytes) (T : Nat)
    (hi : LogInv fs data T) (hp : pending fs = 0)
    (hs : fs.read_start_addr = 0) (he : fs.read_end_addr = 0)
    (hS : T ≤ device_size fs.device) (hU : T + fs.block_size ≤ U64) :
    (logfs_read fs buf 0 T).1 = some 0 ∧
    ∀ i, i < T → (logfs_read fs buf 0 T).2.2 i = data i := by
  have hB := hi.block
  have hT : T < U64 := by omega
  have hmod : T % U64 = T := Nat.mod_eq_of_lt hT
  have hU0 : 0 < U64 := by simp [U64]
  by_cases h0 : T = 0
  · subst h0
    simp [logfs_read, he, hs, hU0]
  · have hmiss : (0 + T) % U64 > fs.read_end_addr ∨ 0 < fs.read_start_addr := by
      left; rw [he, Nat.zero_add, hmod]; omega
    have hd := reader_function_drained fs hB
    have hb := drained_block_size hd
    have hl := hd.limit
    have hsz := hd.size
    have hblk := hd.block
    have hold := hd.old
    have hcount := hi.count
    have hdur := hi.durable
    rw [hp, Nat.add_zero] at hl hcount
    simp only [logfs_read, hmiss, if_true, logfs_read_refill]
    generalize reader_function fs = r at *
    simp only [logfs.block_size, device_block, device_size] at *
    have hz : 0 % r.device.block = 0 := Nat.zero_mod _
    simp only [hz, Nat.sub_zero, Nat.add_zero, Nat.zero_add, hmod]
    have hpad := add_pad_mod T r.device.block (by omega)
    have hlt : T % r.device.block < r.device.block := Nat.mod_lt _ (by omega)
    have hle : T % r.device.block ≤ T := Nat.mod_le _ _
    have hnl : (if T % r.device.block > 0 then (T - T % r.device.block + r.device.block) % U64
        else T) = (if T % r.device.block > 0 then T + (r.device.block - T % r.device.block)
        else T) := by
      split_ifs with h
      · rw [Nat.mod_eq_of_lt (by omega)]; omega
      · rfl
    rw [hnl]
    generalize hN : (if T % r.device.block > 0 then T + (r.device.block - T % r.device.block)
        else T) = N
    have hN1 : T ≤ N := by rw [← hN]; split_ifs <;> omega
    have hN2 : N < U64 := by rw [← hN]; split_ifs <;> omega
    have hN3 : N % r.device.block = 0 := by
      rw [← hN]; split_ifs with h
      · exact hpad
      · omega
    rw [Nat.mod_eq_of_lt hN2, device_read_data _ _ _ _ _ hz hN3]
    have hend : (if N > r.device_limit then r.device_limit else N) = T := by
      split_ifs <;> omega
    simp only [hend]
    rw [if_neg (by omega)]
    have hwin : 0 ≥ 0 ∧ T ≤ (T + U64) % U64 := by
      refine ⟨Nat.le_refl _, ?_⟩
      rw [Nat.add_mod_right, hmod]
    rw [if_pos hwin]
    refine ⟨rfl, fun i hlt2 => ?_⟩
    simp only [memcpy]
    rw [if_pos (by omega), if_pos (by omega)]
    rw [show 0 + (0 + (i - 0) - 0) = i by omega]
    rw [hold i (by omega)]
    exact hdur i (by omega)

theorem step_device_size (fs : logfs) (c : call) (hB : 0 < fs.block_size) :
    (step fs c).device.size = fs.device.size := by
  cases c with
  | append buf len =>
    have h3 := (reader_function_drained fs hB).size
    simp only [step, logfs_append, logfs_append_copy]
    generalize reader_function fs = r at *
    split_ifs <;> first | exact h3 | rfl
  | flush => exact (logfs_flush_drained fs hB).size
  | read buf off len =>
    simp only [step, logfs_read_state]
    split_ifs
    · exact refill_size fs off len hB
    · rfl

theorem run_device_size (cs : List call) (fs : logfs) (hB : 0 < fs.block_size) :
    (run fs cs).device.size = fs.device.size := by
  induction cs generalizing fs with
  | nil => rfl
  | cons c cs ih =>
    exact (ih (step fs c) (by rw [step_block_size fs c hB]; exact hB)).trans
      (step_device_size fs c hB)

theorem log_bytes_length (cs : List call) : (log_bytes cs).length = appended cs := by
  induction cs with
  | nil => rfl
  | cons c cs ih => cases c <;> simp [log_bytes, call_bytes, appended, ih]

/-- The state after a run of flushes and of appends shorter than the write
buffer, followed by a flush: the log is on the device. -/
theorem flushed_log (dev : device) (k : Nat) (cs : List call)
    (hB : 0 < device_block dev)
    (hw : writes_below (device_block dev * WCACHE_BLOCKS) cs = true) :
    LogInv (step (run (logfs_open dev k) cs) call.flush)
      (fun i => (log_bytes cs).getD i 0) (log_bytes cs).length ∧
    pending (step (run (logfs_open dev k) cs) call.flush) = 0 ∧
    (step (run (logfs_open dev k) cs) call.flush).read_start_addr = 0 ∧
    (step (run (logfs_open dev k) cs) call.flush).read_end_addr = 0 ∧
    (step (run (logfs_open dev k) cs) call.flush).device.size = dev.size ∧
    (step (run (logfs_open dev k) cs) call.flush).block_size = dev.block := by
  have hi := run_inv cs (logfs_open dev k) fresh 0 (open_inv dev k hB)
    (writes_below_appends _ cs hw)
  have hb := run_block_size cs (logfs_open dev k) hB
  have hB2 : 0 < (run (logfs_open dev k) cs).block_size := by rw [hb]; exact hB
  have hd := logfs_flush_drained (run (logfs_open dev k) cs) hB2
  obtain ⟨h1, h2⟩ := drained_inv hd hi
  obtain ⟨h3, h4⟩ := run_write_window cs (logfs_open dev k) _ hB hw
  refine ⟨?_, h2, ?_, ?_, ?_, ?_⟩
  · have := @logInv_congr _ _ (fun i => (log_bytes cs).getD i 0) _ (fun i _ => by simp) h1
    simpa using this
  · exact hd.read_start_addr.trans h3
  · exact hd.read_end_addr.trans h4
  · exact hd.size.trans (run_device_size cs (logfs_open dev k) hB)
  · exact (drained_block_size hd).trans hb

/-- Round trip below the capacity: from a freshly opened log with a positive
block size, after any sequence of flushes and of appends each shorter than the
write buffer, whose total length fits the read cache and the device, a flush
followed by `logfs_read(0, total)` returns 0 and fills the caller's buffer
with the concatenation of the appended byte strings. -/
theorem round_trip_below_capacity (dev : device) (k : Nat) (cs : List call) (buf : Bytes)
    (hB : 0 < device_block dev)
    (hw : writes_below (device_block dev * WCACHE_BLOCKS) cs = true)
    (_hR : (log_bytes cs).length ≤ device_block dev * RCACHE_BLOCKS)
    (hS : (log_bytes cs).length ≤ device_size dev)
    (hU : (log_bytes cs).length + device_block dev ≤ U64) :
    (logfs_read (step (run (logfs_open dev k) cs) call.flush) buf 0 (log_bytes cs).length).1
      = some 0 ∧
    ∀ i, i < (log_bytes cs).length →
      (logfs_read (step (run (logfs_open dev k) cs) call.flush) buf 0 (log_bytes cs).length).2.2 i
        = (log_bytes cs).getD i 0 := by
  obtain ⟨h1, h2, h3, h4, h5, h6⟩ := flushed_log dev k cs hB hw
  exact read_whole_log _ buf _ _ h1 h2 h3 h4 (by simp only [device_size] at *; omega)
    (by rw [h6]; exact hU)

/-- Below the capacity `device_limit` is the length of the log: after any
sequence of flushes and of appends each shorter than the write buffer,
followed by a flush, `device_limit` is the number of bytes appended and
nothing is pending. -/
theorem device_limit_below_capacity (dev : device) (k : Nat) (cs : List call)
    (hB : 0 < device_block dev)
    (hw : writes_below (device_block dev * WCACHE_BLOCKS) cs = true) :
    (step (run (logfs_open dev k) cs) call.flush).device_limit = appended cs ∧
    (step (run (logfs_open dev k) cs) call.flush).write_tail
      = (step (run (logfs_open dev k) cs) call.flush).write_head := by
  obtain ⟨h1, h2, -⟩ := flushed_log dev k cs hB hw
  have hc := h1.count
  rw [h2, Nat.add_zero, log_bytes_length] at hc
  refine ⟨hc, ?_⟩
  have hb := run_block_size cs (logfs_open dev k) hB
  have hd := logfs_flush_drained (run (logfs_open dev k) cs) (by rw [hb]; exact hB)
  exact hd.write_tail.trans hd.write_head.symm

/-- The round trip on `wrap_calls`: the read returns 0 and byte 70 of the log
comes back. -/
theorem round_trip_below_capacity_witness :
    0 < device_block small_device ∧
    writes_below (device_block small_device * WCACHE_BLOCKS) wrap_calls = true ∧
    (log_bytes wrap_calls).length ≤ device_block small_device * RCACHE_BLOCKS ∧
    (log_bytes wrap_calls).length ≤ device_size small_device ∧
    (log_bytes wrap_calls).length + device_block small_device ≤ U64 ∧
    (logfs_read (step (run (logfs_open small_device 2) wrap_calls) call.flush) fresh 0
        (log_bytes wrap_calls).length).1 = some 0 ∧
    (logfs_read (step (run (logfs_open small_device 2) wrap_calls) call.flush) fresh 0
        (log_bytes wrap_calls).length).2.2 70 = 71 :=
  ⟨by decide, by decide, by decide, by decide, by decide,
   (round_trip_below_capacity small_device 2 wrap_calls fresh (by decide) (by decide)
     (by decide) (by decide) (by decide)).1,
   ((round_trip_below_capacity small_device 2 wrap_calls fresh (by decide) (by decide)
     (by decide) (by decide) (by decide)).2 70 (by decide)).trans (by decide)⟩

/-- The length of the log on `wrap_calls`: 85 bytes are durable. -/
theorem device_limit_below_capacity_witness :
    0 < device_block small_device ∧
    writes_below (device_block small_device * WCACHE_BLOCKS) wrap_calls = true ∧
    (step (run (logfs_open small_device 2) wrap_calls) call.flush).device_limit = 85 :=
  ⟨by decide, by decide,
   (device_limit_below_capacity small_device 2 wrap_calls (by decide) (by decide)).1⟩

/-- No overwrite below the capacity: in a state that satisfies the log
invariant, a copy of `len` bytes that leaves the buffer short of full keeps
every pending byte in place in the pending sequence and puts the new bytes
behind them. -/
theorem append_copy_keeps_pending (fs : logfs) (buf data : Bytes) (len t : Nat)
    (hi : LogInv fs data t) (hroom : pending fs + len < fs.block_size * WCACHE_BLOCKS) :
    pending (logfs_append_copy fs buf len).2 = pending fs + len ∧
    (∀ i, i < pending fs →
      pending_byte (logfs_append_copy fs buf len).2 i = pending_byte fs i) ∧
    (∀ i, i < len →
      pending_byte (logfs_append_copy fs buf len).2 (pending fs + i) = buf i) := by
  have h := append_copy_inv fs buf data len t hi hroom
  have hc := hi.count
  have hc2 := h.count
  have hdl : (logfs_append_copy fs buf len).2.device_limit = fs.device_limit := by
    simp only [logfs_append_copy]; split_ifs <;> rfl
  rw [hdl] at hc2
  have hp : pending (logfs_append_copy fs buf len).2 = pending fs + len := by omega
  refine ⟨hp, fun i hlt => ?_, fun i hlt => ?_⟩
  · rw [h.queued i (by omega), hi.queued i hlt, hdl]
    simp only [log_append]
    rw [if_pos (by omega)]
  · rw [h.queued _ (by omega), hdl]
    simp only [log_append]
    rw [if_neg (by omega)]
    congr 1; omega

/-- C13, evaluation at the failing input: on a freshly opened log over
`demo_device` the call `logfs_read(0, 1)` passes the device-size guard, fails
the window test and reaches the end of the function: it returns no status. -/
theorem logfs_read_falls_through :
    0 + 1 ≤ device_size (logfs_open demo_device 2).device ∧
    (logfs_read (logfs_open demo_device 2) (fun _ => 99) 0 1).1 = none ∧
    (logfs_read (logfs_open demo_device 2) (fun _ => 99) 0 1).2.2 0 = 99 := by
  decide

/-! ## The flush of a wrapped pending region -/

/-- C12: in a state with a positive block size whose pending region wraps the
end of the buffer (`write_head < write_tail`, both inside the buffer) and
`device_limit = L`, `logfs_flush` returns 0 after `logfs_flush_(write_tail,
write_limit)` followed by `logfs_flush_(write_queue, write_head)`; afterwards
the device bytes at `L .. L + n`, `n = (write_limit - write_tail) +
(write_head - write_queue)`, are the buffer bytes from `write_tail` to the
end of the buffer followed by those from the buffer base to `write_head`,
`device_limit = L + n`, `write_tail` is the old `write_head` and `write_head`
is unchanged. -/
theorem logfs_flush_wrapped (fs : logfs) (i : Nat) (hB : 0 < fs.block_size)
    (hw : fs.write_head < fs.write_tail) (_ht : fs.write_tail ≤ fs.write_limit)
    (_hq : fs.write_queue ≤ fs.write_head)
    (hi : i < (fs.write_limit - fs.write_tail) + (fs.write_head - fs.write_queue)) :
    logfs_flush fs =
      (0, { logfs_flush_ (logfs_flush_ fs fs.mem fs.write_tail fs.write_limit)
              (logfs_flush_ fs fs.mem fs.write_tail fs.write_limit).mem
              (logfs_flush_ fs fs.mem fs.write_tail fs.write_limit).write_queue fs.write_head
            with write_tail := fs.write_head }) ∧
    (logfs_flush fs).2.device.data (fs.device_limit + i) =
      (if i < fs.write_limit - fs.write_tail then fs.mem (fs.write_tail + i)
       else fs.mem (fs.write_queue + (i - (fs.write_limit - fs.write_tail)))) ∧
    (logfs_flush fs).2.device_limit =
      fs.device_limit + ((fs.write_limit - fs.write_tail) + (fs.write_head - fs.write_queue)) ∧
    (logfs_flush fs).2.write_tail = fs.write_head ∧
    (logfs_flush fs).2.write_head = fs.write_head := by
  have h := flush_all_post fs hB
  obtain ⟨-, -, hd, t, -⟩ := flushAllPost_fields h
  have hl := h.limit
  have hn := h.new i (by simpa [pending, hw] using hi)
  simp only [pending, pending_byte, hw, if_true] at hl hn
  refine ⟨?_, hn, hl, t, hd⟩
  simp only [logfs_flush, hw, if_true]

/-- Witness of C12 on `wrapped_log`: byte 30 of the pending region sits in the
second piece, 11 bytes after the buffer base. -/
theorem logfs_flush_wrapped_witness :
    0 < wrapped_log.block_size ∧ wrapped_log.write_head < wrapped_log.write_tail ∧
    wrapped_log.write_tail ≤ wrapped_log.write_limit ∧
    wrapped_log.write_queue ≤ wrapped_log.write_head ∧
    30 < (wrapped_log.write_limit - wrapped_log.write_tail)
      + (wrapped_log.write_head - wrapped_log.write_queue) ∧
    (logfs_flush wrapped_log).2.device.data (wrapped_log.device_limit + 30) = 76 ∧
    (logfs_flush wrapped_log).2.device_limit = 85 :=
  ⟨by decide, by decide, by decide, by decide, by decide,
   ((logfs_flush_wrapped wrapped_log 30 (by decide) (by decide) (by decide) (by decide)
      (by decide)).2.1).trans (by decide),
   ((logfs_flush_wrapped wrapped_log 30 (by decide) (by decide) (by decide) (by decide)
      (by decide)).2.2.1).trans (by decide)⟩

/-! ## Depth of the recursion of `logfs_flush_` -/

/-- The nested call of `logfs_flush_` is made with a block-aligned
`device_limit` and with source address 0 of the scratch buffer: the body gives
the same result for any two functions that agree on such calls. -/
theorem flush_body_nested_aligned (fs : logfs) (src : Bytes) (start end_ : Nat)
    (hB : 0 < fs.block_size)
    (self1 self2 : logfs → Bytes → Nat → Nat → Option logfs)
    (h : ∀ (f : logfs) (s : Bytes) (e : Nat), f.block_size = fs.block_size →
      f.device_limit % f.block_size = 0 → self1 f s 0 e = self2 f s 0 e) :
    logfs_flush_body self1 fs src start end_ = logfs_flush_body self2 fs src start end_ := by
  simp only [logfs_flush_body, logfs_flush_rest]
  split_ifs with h1 h2 h3 h4 h5
  · rfl
  · rfl
  · apply h
    · simp [logfs.block_size, device_block]
    · simpa [logfs.block_size, device_block] using
        add_pad_mod fs.device_limit fs.device.block hB
  · rfl
  · apply h
    · rfl
    · omega
  · rfl

/-- C18: with a positive block size and `start ≤ end`, `logfs_flush_` returns
within two levels of recursion.  Its nested call is made only with a
block-aligned `device_limit` and the block-aligned base of the scratch buffer
as source, and such a call takes neither the merge nor the scratch copy: it
returns at once or after the whole-block write, without a further call. -/
theorem logfs_flush__recursion_bounded (fs : logfs) (src : Bytes) (start end_ : Nat)
    (hB : 0 < fs.block_size) (_hse : start ≤ end_) :
    (∀ n, logfs_flush_fuel (n + 2) fs src start end_ = some (logfs_flush_ fs src start end_)) ∧
    (∀ self1 self2 : logfs → Bytes → Nat → Nat → Option logfs,
      (∀ (f : logfs) (s : Bytes) (e : Nat), f.block_size = fs.block_size →
        f.device_limit % f.block_size = 0 → self1 f s 0 e = self2 f s 0 e) →
      logfs_flush_body self1 fs src start end_ = logfs_flush_body self2 fs src start end_) ∧
    (∀ (self : logfs → Bytes → Nat → Nat → Option logfs) (f : logfs) (s : Bytes) (e : Nat),
      f.block_size = fs.block_size → f.device_limit % f.block_size = 0 →
      logfs_flush_body self f s 0 e = some (if 0 = e then f else logfs_flush_write f s 0 e)) := by
  refine ⟨fun n => logfs_flush_fuel_enough fs src start end_ hB n,
    fun self1 self2 h => flush_body_nested_aligned fs src start end_ hB self1 self2 h,
    fun self f s e hb hl => ?_⟩
  simp only [logfs_flush_body, logfs_flush_rest, hl, Nat.zero_mod, lt_irrefl, if_false]
  split_ifs <;> rfl

/-- Witness of C18 on `demo_state`: the flush of the addresses 11 to 29 needs
its nested call, depth 1 is not enough and depth 2 is. -/
theorem logfs_flush__recursion_bounded_witness :
    0 < demo_state.block_size ∧ 11 ≤ 29 ∧
    logfs_flush_fuel 1 demo_state demo_state.mem 11 29 = none ∧
    logfs_flush_fuel 2 demo_state demo_state.mem 11 29
      = some (logfs_flush_ demo_state demo_state.mem 11 29) :=
  ⟨by decide, by decide, by simp [logfs_flush_fuel, logfs_flush_body, logfs_flush_rest,
      demo_state, logfs_open, demo_device, logfs.block_size, device_block],
   (logfs_flush__recursion_bounded demo_state demo_state.mem 11 29 (by decide) (by decide)).1 0⟩

/-! ## Events of the flush engine -/

/-- The traced body computes the state of the plain body. -/
theorem flush_body_traced_fst (selfT : logfs → Bytes → Nat → Nat → Option (logfs × List event))
    (self : logfs → Bytes → Nat → Nat → Option logfs)
    (h : ∀ f s a e, (selfT f s a e).map Prod.fst = self f s a e)
    (fs : logfs) (src : Bytes) (start end_ : Nat) :
    (logfs_flush_body_traced selfT fs src start end_).map Prod.fst
      = logfs_flush_body self fs src start end_ := by
  have hrest : ∀ f s a e, (logfs_flush_rest_traced selfT f s a e).map Prod.fst
      = logfs_flush_rest self f s a e := by
    intro f s a e
    simp only [logfs_flush_rest_traced, logfs_flush_rest]
    split_ifs
    · rw [← h]
      cases selfT f (memcpy (memset fresh 0 0 (f.block_size * WCACHE_BLOCKS)) 0 s a (e - a)) 0
        (0 + (e - a)) with
      | none => rfl
      | some p => rfl
    · rfl
  simp only [logfs_flush_body_traced, logfs_flush_body]
  split_ifs
  · rfl
  · rfl
  · rw [← hrest]
    cases logfs_flush_rest_traced selfT _ src (start +
      (fs.block_size - fs.device_limit % fs.block_size)) end_ with
    | none => rfl
    | some p => rfl
  · exact hrest _ _ _ _

/-- The traced function computes the state of `logfs_flush_fuel`. -/
theorem flush_traced_fuel_fst (n : Nat) (fs : logfs) (src : Bytes) (start end_ : Nat) :
    (logfs_flush_traced_fuel n fs src start end_).map Prod.fst
      = logfs_flush_fuel n fs src start end_ := by
  induction n generalizing fs src start end_ with
  | zero => rfl
  | succ n ih =>
    exact flush_body_traced_fst _ _ (fun f s a e => ih f s a e) fs src start end_

/-! ## A flush with nothing pending -/

/-- C11: in a state with `write_head = write_tail`, `logfs_flush` returns 0
and changes nothing (the state, with `device_limit`, the device, the write
buffer, `write_head` and `write_tail`, is the same), it issues no device read
and no device write, and a second `logfs_flush` gives what the first gave. -/
theorem logfs_flush_idempotent (fs : logfs) (h : fs.write_head = fs.write_tail) :
    logfs_flush fs = (0, fs) ∧ logfs_flush_all_events fs = [] ∧
    logfs_flush (logfs_flush fs).2 = logfs_flush fs := by
  have h1 : logfs_flush fs = (0, fs) := by
    cases fs
    simp only at h
    subst h
    simp [logfs_flush, logfs_flush_, logfs_flush_fuel, logfs_flush_body]
  refine ⟨h1, ?_, ?_⟩
  · simp [logfs_flush_all_events, logfs_flush_events, logfs_flush_traced_fuel,
      logfs_flush_body_traced, h]
  · rw [h1]; exact h1

/-- Witness of C11 on `six_byte_log`, a log that has just been flushed. -/
theorem logfs_flush_idempotent_witness :
    six_byte_log.write_head = six_byte_log.write_tail ∧
    logfs_flush six_byte_log = (0, six_byte_log) ∧
    logfs_flush_all_events six_byte_log = [] ∧
    logfs_flush (logfs_flush six_byte_log).2 = logfs_flush six_byte_log :=
  ⟨by decide, logfs_flush_idempotent six_byte_log (by decide)⟩

/-! ## The shape of the write buffer along a run -/

theorem open_shape (dev : device) (k : Nat) (hB : 0 < device_block dev) :
    Shape (logfs_open dev k) := by
  refine ⟨hB, ?_, rfl, ⟨Nat.le_refl _, ?_⟩, ⟨Nat.le_refl _, ?_⟩, ?_⟩
  · simp [logfs_open, logfs.block_size]
  · simp [logfs_open]
  · simp [logfs_open]
  · simp [logfs_open]

/-- A flush round keeps the shape: the new `write_tail` is as far from the
buffer base as `device_limit` is from a block boundary. -/
theorem drained_shape {fs r : logfs} (h : Drained fs r) (hs : Shape fs) : Shape r := by
  obtain ⟨hb, hbase, hl, ⟨hh1, hh2⟩, ⟨ht1, ht2⟩, ha⟩ := hs
  have hbs := drained_block_size h
  refine ⟨?_, ?_, ?_, ?_, ?_, ?_⟩
  · rw [hbs]; exact hb
  · rw [hbs, h.write_queue]; exact hbase
  · rw [h.write_limit, h.write_queue, hbs]; exact hl
  · rw [h.write_limit, h.write_queue, h.write_head]; exact ⟨hh1, hh2⟩
  · rw [h.write_limit, h.write_queue, h.write_tail]; exact ⟨hh1, hh2⟩
  · rw [hbs, h.write_queue, h.write_tail, h.limit]
    have key : ((fs.write_tail - fs.write_queue) + pending fs) % fs.block_size
        = (fs.device_limit + pending fs) % fs.block_size :=
      Nat.ModEq.add_right _ ha
    rw [← key]
    simp only [pending, WCACHE_BLOCKS] at hl ⊢
    split_ifs with hw
    · have e : fs.write_tail - fs.write_queue
          + (fs.write_limit - fs.write_tail + (fs.write_head - fs.write_queue))
          = (fs.write_head - fs.write_queue) + fs.block_size * 32 := by omega
      rw [e, Nat.add_mul_mod_self_left]
    · congr 1; omega

theorem append_copy_shape (fs : logfs) (buf : Bytes) (len : Nat) (hs : Shape fs)
    (hf : len ≤ (fs.write_limit - fs.write_head) + (fs.write_limit - fs.write_queue)) :
    Shape (logfs_append_copy fs buf len).2 := by
  obtain ⟨hb, hbase, hl, ⟨hh1, hh2⟩, ⟨ht1, ht2⟩, ha⟩ := hs
  simp only [logfs_append_copy]
  split_ifs with h1
  · exact ⟨hb, hbase, hl, ⟨by show fs.write_queue ≤ fs.write_head + len; omega, h1⟩,
      ⟨ht1, ht2⟩, ha⟩
  · refine ⟨hb, hbase, hl, ⟨?_, ?_⟩, ⟨ht1, ht2⟩, ha⟩
    · show fs.write_queue ≤ fs.write_queue + (len - (fs.write_limit - fs.write_head)); omega
    · show fs.write_queue + (len - (fs.write_limit - fs.write_head)) ≤ fs.write_limit; omega

/-- The function `logfs_append` forces a flush when `len ≥ free_space` and then
copies. -/
theorem logfs_append_eq (fs : logfs) (buf : Bytes) (len : Nat) :
    logfs_append fs buf len
      = logfs_append_copy (if len ≥ free_space fs then reader_function fs else fs) buf len :=
  rfl

theorem step_shape (fs : logfs) (c : call) (hs : Shape fs) (hf : append_fits fs c = true) :
    Shape (step fs c) := by
  cases c with
  | append buf len =>
    simp only [append_fits, decide_eq_true_eq] at hf
    simp only [step, logfs_append_eq]
    split_ifs
    · have hd := reader_function_drained fs hs.block
      apply append_copy_shape _ _ _ (drained_shape hd hs)
      rw [hd.write_limit, hd.write_head, hd.write_queue]; exact hf
    · exact append_copy_shape _ _ _ hs hf
  | flush => exact drained_shape (logfs_flush_drained fs hs.block) hs
  | read buf off len =>
    simp only [step, logfs_read_state]
    split_ifs
    · obtain ⟨hb, hbase, hl, hh, ht, ha⟩ := drained_shape (reader_function_drained fs hs.block) hs
      exact ⟨hb, hbase, hl, hh, ht, ha⟩
    · exact hs

theorem run_shape (cs : List call) (fs : logfs) (hs : Shape fs)
    (hf : appends_fit fs cs = true) : Shape (run fs cs) := by
  induction cs generalizing fs with
  | nil => exact hs
  | cons c cs ih =>
    simp only [appends_fit, Bool.and_eq_true] at hf
    exact ih (step fs c) (step_shape fs c hs hf.1) hf.2

/-! ## Source reads of the flush engine -/

theorem base_add_mod (lo x B : Nat) (h : lo % B = 0) : (lo + x) % B = x % B := by
  rw [Nat.add_mod, h, Nat.zero_add, Nat.mod_mod]

/-- The end of the block that holds offset `x` is inside a buffer of whole
blocks that holds `x`. -/
theorem next_block_le (x B n : Nat) (hB : 0 < B) (hx : x ≤ B * n) (hm : 0 < x % B) :
    x + (B - x % B) ≤ B * n := by
  have h := round_up_le x B n hB hx hm
  have h2 : x % B ≤ x := Nat.mod_le _ _
  have h3 : x % B < B := Nat.mod_lt _ hB
  omega

/-- The whole-block write from a block-aligned position of a buffer of whole
blocks reads inside the buffer. -/
theorem write_events_inside (fs : logfs) (start end_ lo n : Nat) (hB : 0 < fs.block_size)
    (hlo : lo % fs.block_size = 0) (h1 : lo ≤ start) (h2 : start ≤ end_)
    (h3 : end_ ≤ lo + fs.block_size * n) (hs : start % fs.block_size = 0) :
    ∀ e ∈ logfs_flush_write_events fs start end_,
      reads_inside lo (lo + fs.block_size * n) e = true := by
  intro e he
  simp only [logfs_flush_write_events, List.mem_cons, List.mem_singleton, List.not_mem_nil,
    or_false] at he
  rcases he with rfl | rfl
  · simp only [reads_inside, decide_eq_true_eq]
    refine ⟨h1, ?_⟩
    generalize fs.block_size = B at *
    split_ifs with hp
    · have e1 : (start - lo) % B = 0 := by
        have := base_add_mod lo (start - lo) B hlo
        rw [show lo + (start - lo) = start by omega] at this
        omega
      have e2 : (end_ - lo) % B = (end_ - start) % B := by
        have := Nat.add_mod (start - lo) (end_ - start) B
        rw [show start - lo + (end_ - start) = end_ - lo by omega, e1, Nat.zero_add,
          Nat.mod_mod] at this
        exact this
      have := next_block_le (end_ - lo) B n hB (by omega) (by omega)
      omega
    · omega
  · rfl

/-- A call of `logfs_flush_` on a range of a block-aligned buffer of whole
blocks, whose start is as far from the buffer base as `device_limit` is from
a block boundary, makes no nested call and reads its source inside the
buffer. -/
theorem flush_body_traced_shaped (fs : logfs) (src : Bytes) (start end_ lo n : Nat)
    (hB : 0 < fs.block_size) (hlo : lo % fs.block_size = 0)
    (h1 : lo ≤ start) (h2 : start ≤ end_) (h3 : end_ ≤ lo + fs.block_size * n)
    (ha : (start - lo) % fs.block_size = fs.device_limit % fs.block_size) :
    ∃ r evs, (∀ selfT, logfs_flush_body_traced selfT fs src start end_ = some (r, evs)) ∧
      ∀ e ∈ evs, reads_inside lo (lo + fs.block_size * n) e = true := by
  by_cases he : start = end_
  · exact ⟨fs, [], fun _ => by simp [logfs_flush_body_traced, he], fun e h => by simp at h⟩
  have hstart : start % fs.block_size = (start - lo) % fs.block_size := by
    have := base_add_mod lo (start - lo) fs.block_size hlo
    rw [show lo + (start - lo) = start by omega] at this
    exact this
  by_cases hd : fs.device_limit % fs.block_size > 0
  · have hnext := next_block_le (start - lo) fs.block_size n hB (by omega) (by omega)
    have hmerge : ∀ e ∈ logfs_flush_merge_events fs start,
        reads_inside lo (lo + fs.block_size * n) e = true := by
      intro e hmem
      simp only [logfs_flush_merge_events, List.mem_cons, List.mem_singleton,
        List.not_mem_nil, or_false] at hmem
      rcases hmem with rfl | rfl | rfl
      · rfl
      · simp only [reads_inside, decide_eq_true_eq]
        omega
      · rfl
    by_cases hfit : start + (fs.block_size - fs.device_limit % fs.block_size) > end_
    · refine ⟨{ fs with device := logfs_flush_merge fs src start,
                        device_limit := fs.device_limit + (end_ - start) },
        logfs_flush_merge_events fs start, fun _ => ?_, hmerge⟩
      simp only [logfs_flush_body_traced, he, hd, hfit, if_true, if_false]
    · have hs2 : (start + (fs.block_size - fs.device_limit % fs.block_size)) % fs.block_size
          = 0 := by
        have hx := add_pad_mod (start - lo) fs.block_size hB
        have := base_add_mod lo (start - lo + (fs.block_size - (start - lo) % fs.block_size))
          fs.block_size hlo
        rw [hx] at this
        rw [← this]
        congr 1; omega
      obtain ⟨f2, hf2⟩ : ∃ f2 : logfs, f2 = { fs with
          device := logfs_flush_merge fs src start,
          device_limit := fs.device_limit + (fs.block_size - fs.device_limit % fs.block_size) } :=
        ⟨_, rfl⟩
      have hb2 : f2.block_size = fs.block_size := by
        rw [hf2]; simp [logfs.block_size, device_block]
      have hw := write_events_inside f2
        (start + (fs.block_size - fs.device_limit % fs.block_size)) end_ lo n
        (by rw [hb2]; exact hB) (by rw [hb2]; exact hlo) (by omega) (by omega)
        (by rw [hb2]; exact h3) (by rw [hb2]; exact hs2)
      rw [hb2] at hw
      refine ⟨logfs_flush_write f2 src
          (start + (fs.block_size - fs.device_limit % fs.block_size)) end_,
        logfs_flush_merge_events fs start ++ logfs_flush_write_events f2
          (start + (fs.block_size - fs.device_limit % fs.block_size)) end_,
        fun _ => ?_, ?_⟩
      · simp only [logfs_flush_body_traced, he, hd, hfit, if_true, if_false,
          logfs_flush_rest_traced, ← hf2, hb2, hs2, lt_irrefl]
      · intro e hmem
        rcases List.mem_append.mp hmem with h | h
        · exact hmerge e h
        · exact hw e h
  · have hs0 : start % fs.block_size = 0 := by omega
    refine ⟨logfs_flush_write fs src start end_, logfs_flush_write_events fs start end_,
      fun _ => ?_, write_events_inside fs start end_ lo n hB hlo h1 h2 h3 hs0⟩
    simp only [logfs_flush_body_traced, he, hd, if_false, logfs_flush_rest_traced, hs0,
      lt_irrefl]

/-- A call of `logfs_flush_` on a range of the write buffer, in a state of the
right shape: one level of recursion is enough, and the source is read inside
the buffer. -/
theorem flush_shaped (fs : logfs) (src : Bytes) (start end_ lo n : Nat)
    (hB : 0 < fs.block_size) (hlo : lo % fs.block_size = 0)
    (h1 : lo ≤ start) (h2 : start ≤ end_) (h3 : end_ ≤ lo + fs.block_size * n)
    (ha : (start - lo) % fs.block_size = fs.device_limit % fs.block_size) :
    logfs_flush_fuel 1 fs src start end_ = some (logfs_flush_ fs src start end_) ∧
    ∀ e ∈ logfs_flush_events fs src start end_,
      reads_inside lo (lo + fs.block_size * n) e = true := by
  obtain ⟨r, evs, hr, hin⟩ := flush_body_traced_shaped fs src start end_ lo n hB hlo h1 h2 h3 ha
  have t1 : logfs_flush_traced_fuel 1 fs src start end_ = some (r, evs) := hr _
  have t2 : logfs_flush_traced_fuel 2 fs src start end_ = some (r, evs) := hr _
  have f1 := flush_traced_fuel_fst 1 fs src start end_
  have f2 := flush_traced_fuel_fst 2 fs src start end_
  rw [t1] at f1
  rw [t2] at f2
  have hr2 : logfs_flush_ fs src start end_ = r := by
    rw [logfs_flush_, ← f2]; rfl
  refine ⟨by rw [hr2, ← f1]; rfl, ?_⟩
  simp only [logfs_flush_events, t2]
  exact hin

/-- In a state of the right shape, the one or two calls of `logfs_flush_` made
by `logfs_flush` need no nested call and read their source inside the write
buffer. -/
theorem flush_all_shaped (fs : logfs) (hs : Shape fs) :
    (if fs.write_head < fs.write_tail then
      logfs_flush_fuel 1 fs fs.mem fs.write_tail fs.write_limit
        = some (logfs_flush_ fs fs.mem fs.write_tail fs.write_limit) ∧
      logfs_flush_fuel 1 (logfs_flush_ fs fs.mem fs.write_tail fs.write_limit)
          (logfs_flush_ fs fs.mem fs.write_tail fs.write_limit).mem
          (logfs_flush_ fs fs.mem fs.write_tail fs.write_limit).write_queue fs.write_head
        = some (logfs_flush_ (logfs_flush_ fs fs.mem fs.write_tail fs.write_limit)
          (logfs_flush_ fs fs.mem fs.write_tail fs.write_limit).mem
          (logfs_flush_ fs fs.mem fs.write_tail fs.write_limit).write_queue fs.write_head)
    else
      logfs_flush_fuel 1 fs fs.mem fs.write_tail fs.write_head
        = some (logfs_flush_ fs fs.mem fs.write_tail fs.write_head)) ∧
    ∀ e ∈ logfs_flush_all_events fs, reads_inside fs.write_queue fs.write_limit e = true := by
  obtain ⟨hb, hbase, hl, ⟨hh1, hh2⟩, ⟨ht1, ht2⟩, ha⟩ := hs
  by_cases hw : fs.write_head < fs.write_tail
  · simp only [hw, if_true, logfs_flush_all_events]
    have c1 := flush_shaped fs fs.mem fs.write_tail fs.write_limit fs.write_queue WCACHE_BLOCKS
      hb hbase ht1 ht2 (by omega) ha
    have hp := flush_post fs fs.mem fs.write_tail fs.write_limit hb
    obtain ⟨m1, q1, -, -, -, -, -, -, -, -, -, b1⟩ := flushPost_fields hp
    have hl1 := hp.limit
    generalize logfs_flush_ fs fs.mem fs.write_tail fs.write_limit = f1 at *
    have hal : (fs.write_queue - fs.write_queue) % f1.block_size
        = f1.device_limit % f1.block_size := by
      rw [b1, hl1, Nat.sub_self, Nat.zero_mod]
      have key : ((fs.write_tail - fs.write_queue) + (fs.write_limit - fs.write_tail))
          % fs.block_size
          = (fs.device_limit + (fs.write_limit - fs.write_tail)) % fs.block_size :=
        Nat.ModEq.add_right _ ha
      rw [← key, show fs.write_tail - fs.write_queue + (fs.write_limit - fs.write_tail)
        = fs.block_size * WCACHE_BLOCKS by omega, Nat.mul_mod_right]
    have c2 := flush_shaped f1 f1.mem fs.write_queue fs.write_head fs.write_queue WCACHE_BLOCKS
      (by rw [b1]; exact hb) (by rw [b1]; exact hbase) (Nat.le_refl _) hh1
      (by rw [b1]; omega) hal
    rw [b1, ← hl] at c2
    rw [← hl] at c1
    rw [q1]
    refine ⟨⟨c1.1, c2.1⟩, fun e hmem => ?_⟩
    rcases List.mem_append.mp hmem with h | h
    · exact c1.2 e h
    · exact c2.2 e h
  · have c1 := flush_shaped fs fs.mem fs.write_tail fs.write_head fs.write_queue WCACHE_BLOCKS
      hb hbase ht1 (by omega) (by omega) ha
    rw [← hl] at c1
    simp only [hw, if_false, logfs_flush_all_events]
    exact c1

theorem within_fits (cs : List call) (fs : logfs) (hs : Shape fs)
    (hw : appends_within (fs.block_size * WCACHE_BLOCKS) cs = true) :
    appends_fit fs cs = true := by
  induction cs generalizing fs with
  | nil => rfl
  | cons c cs ih =>
    have hl := hs.limit
    have hf : append_fits fs c = true := by
      cases c <;> simp_all [appends_within, append_fits]; omega
    have hw2 : appends_within (fs.block_size * WCACHE_BLOCKS) cs = true := by
      cases c <;> simp_all [appends_within]
    simp only [appends_fit, hf, Bool.true_and]
    exact ih (step fs c) (step_shape fs c hs hf)
      (by rw [step_block_size fs c hs.block]; exact hw2)

/-! ## Alignment of the pending region -/

/-- C19: in every state reached from a freshly opened log with a positive
block size (its buffer base is block-aligned) by `logfs_append`, `logfs_flush`
and `logfs_read` calls whose copies stay inside the write buffer, the offset
of `write_tail` in the buffer is congruent to `device_limit` modulo the block
size; and every call of `logfs_flush_` made by `logfs_flush` returns without a
nested call, so that the scratch copy of a misaligned source is not taken. -/
theorem write_tail_congruent_to_device_limit (dev : device) (k : Nat) (cs : List call)
    (fs : logfs) (hB : 0 < device_block dev)
    (hf : appends_fit (logfs_open dev k) cs = true)
    (hfs : fs = run (logfs_open dev k) cs) :
    (fs.write_tail - fs.write_queue) % fs.block_size = fs.device_limit % fs.block_size ∧
    (if fs.write_head < fs.write_tail then
      logfs_flush_fuel 1 fs fs.mem fs.write_tail fs.write_limit
        = some (logfs_flush_ fs fs.mem fs.write_tail fs.write_limit) ∧
      logfs_flush_fuel 1 (logfs_flush_ fs fs.mem fs.write_tail fs.write_limit)
          (logfs_flush_ fs fs.mem fs.write_tail fs.write_limit).mem
          (logfs_flush_ fs fs.mem fs.write_tail fs.write_limit).write_queue fs.write_head
        = some (logfs_flush_ (logfs_flush_ fs fs.mem fs.write_tail fs.write_limit)
          (logfs_flush_ fs fs.mem fs.write_tail fs.write_limit).mem
          (logfs_flush_ fs fs.mem fs.write_tail fs.write_limit).write_queue fs.write_head)
    else
      logfs_flush_fuel 1 fs fs.mem fs.write_tail fs.write_head
        = some (logfs_flush_ fs fs.mem fs.write_tail fs.write_head)) := by
  subst hfs
  have hs := run_shape cs (logfs_open dev k) (open_shape dev k hB) hf
  exact ⟨hs.aligned, (flush_all_shaped _ hs).1⟩

/-- Witness of C19 on `wrapped_log`: the pending region wraps, `write_tail` is
45 bytes into the buffer and 45 bytes are durable. -/
theorem write_tail_congruent_to_device_limit_witness :
    0 < device_block small_device ∧
    appends_fit (logfs_open small_device 2) wrap_calls = true ∧
    (wrapped_log.write_tail - wrapped_log.write_queue) % wrapped_log.block_size
      = wrapped_log.device_limit % wrapped_log.block_size ∧
    wrapped_log.write_tail - wrapped_log.write_queue = 45 ∧ wrapped_log.device_limit = 45 :=
  ⟨by decide, by decide,
   (write_tail_congruent_to_device_limit small_device 2 wrap_calls wrapped_log (by decide)
     (by decide) rfl).1,
   by decide, by decide⟩

/-! ## Source reads of a flush stay inside the write buffer -/

/-- C20: in every state reached from a freshly opened log with a positive
block size by `logfs_flush`, `logfs_read` and `logfs_append` calls of length
at most `C = block_size * 32`, every read of source memory made by the calls
of `logfs_flush_` that `logfs_flush` makes lies inside the write buffer, from
`write_queue` to `write_limit`: the merge copy of `block_size - slack` bytes
and the final write of a length rounded up to whole blocks included. -/
theorem flush_reads_inside_buffer (dev : device) (k : Nat) (cs : List call) (fs : logfs)
    (e : event) (hB : 0 < device_block dev)
    (hw : appends_within (device_block dev * WCACHE_BLOCKS) cs = true)
    (hfs : fs = run (logfs_open dev k) cs) (he : e ∈ logfs_flush_all_events fs) :
    reads_inside fs.write_queue fs.write_limit e = true := by
  subst hfs
  have hs0 := open_shape dev k hB
  have hs := run_shape cs (logfs_open dev k) hs0 (within_fits cs _ hs0 hw)
  exact (flush_all_shaped _ hs).2 e he

/-- Witness of C20 on `slack_calls`: one byte is pending at address 9 and the
merge copy reads the three bytes from address 9 on, inside the buffer. -/
theorem flush_reads_inside_buffer_witness :
    0 < device_block demo_device ∧
    appends_within (device_block demo_device * WCACHE_BLOCKS) slack_calls = true ∧
    logfs_flush_all_events (run (logfs_open demo_device 2) slack_calls)
      = [event.device_read 0 4, event.source_read 9 3, event.device_write 0 4] ∧
    reads_inside (run (logfs_open demo_device 2) slack_calls).write_queue
      (run (logfs_open demo_device 2) slack_calls).write_limit (event.source_read 9 3) = true :=
  ⟨by decide, by decide, by decide,
   flush_reads_inside_buffer demo_device 2 slack_calls _ (event.source_read 9 3) (by decide)
     (by decide) rfl (by decide)⟩

/-! ## An append that forces no flush -/

/-- A state of the right shape whose buffer is not full satisfies the log
invariant for the bytes it holds. -/
theorem shape_logInv (fs : logfs) (hs : Shape fs)
    (hr : pending fs < fs.block_size * WCACHE_BLOCKS) :
    LogInv fs
      (fun i => if i < fs.device_limit then fs.device.data i
        else pending_byte fs (i - fs.device_limit))
      (fs.device_limit + pending fs) := by
  refine ⟨hs.block, hs.limit, hs.head, hs.tail, hr, rfl, ?_, ?_⟩
  · intro i hi
    simp only [hi, if_true]
  · intro i _
    simp only [show ¬ (fs.device_limit + i < fs.device_limit) by omega, if_false,
      Nat.add_sub_cancel_left]

/-- In a state of the right shape, `free_space` is the capacity minus the
number of pending bytes. -/
theorem free_space_eq (fs : logfs) (hs : Shape fs) :
    free_space fs = fs.block_size * WCACHE_BLOCKS - pending fs := by
  obtain ⟨-, -, hl, ⟨hh1, hh2⟩, ⟨ht1, ht2⟩, -⟩ := hs
  simp only [free_space, pending]
  split_ifs <;> omega

/-- C15: in every state reached from a freshly opened log with a positive
block size by calls whose copies stay inside the write buffer, a
`logfs_append` with `len < free_space` (the capacity minus the pending count)
returns 0, leaves `write_tail`, `device_limit` and the device as they are and
sets `write_allow`; the pending bytes, read from `write_tail` to the new
`write_head` along the circular order, are the previous ones followed by the
data; the data is copied in one piece when it fits before the end of the
buffer, and otherwise in a piece that ends at the end of the buffer and a
piece that starts at its base, with the new `write_head` at `write_head + len`
less the capacity. -/
theorem logfs_append_without_flush (dev : device) (k : Nat) (cs : List call) (fs : logfs)
    (buf : Bytes) (len : Nat) (hB : 0 < device_block dev)
    (hf : appends_fit (logfs_open dev k) cs = true)
    (hfs : fs = run (logfs_open dev k) cs) (hlen : len < free_space fs) :
    (logfs_append fs buf len).1 = 0 ∧
    (logfs_append fs buf len).2.write_tail = fs.write_tail ∧
    (logfs_append fs buf len).2.device_limit = fs.device_limit ∧
    (logfs_append fs buf len).2.device = fs.device ∧
    (logfs_append fs buf len).2.write_allow = 1 ∧
    free_space fs = fs.block_size * WCACHE_BLOCKS - pending fs ∧
    pending (logfs_append fs buf len).2 = pending fs + len ∧
    (∀ i, i < pending fs → pending_byte (logfs_append fs buf len).2 i = pending_byte fs i) ∧
    (∀ i, i < len → pending_byte (logfs_append fs buf len).2 (pending fs + i) = buf i) ∧
    (if fs.write_head + len ≤ fs.write_limit then
      (logfs_append fs buf len).2.write_head = fs.write_head + len ∧
      ∀ i, i < len → (logfs_append fs buf len).2.mem (fs.write_head + i) = buf i
    else
      (logfs_append fs buf len).2.write_head + fs.block_size * WCACHE_BLOCKS
        = fs.write_head + len ∧
      (∀ i, i < fs.write_limit - fs.write_head →
        (logfs_append fs buf len).2.mem (fs.write_head + i) = buf i) ∧
      (∀ i, i < len - (fs.write_limit - fs.write_head) →
        (logfs_append fs buf len).2.mem (fs.write_queue + i)
          = buf (fs.write_limit - fs.write_head + i))) := by
  have hs : Shape fs := by
    rw [hfs]; exact run_shape cs (logfs_open dev k) (open_shape dev k hB) hf
  have hfree := free_space_eq fs hs
  have hroom : pending fs + len < fs.block_size * WCACHE_BLOCKS := by omega
  have hcopy : logfs_append fs buf len = logfs_append_copy fs buf len := by
    rw [logfs_append_eq, if_neg (by omega)]
  obtain ⟨k1, k2, k3⟩ := append_copy_keeps_pending fs buf _ len _
    (shape_logInv fs hs (by omega)) hroom
  rw [hcopy]
  obtain ⟨-, -, hl, ⟨hh1, hh2⟩, ⟨ht1, ht2⟩, -⟩ := hs
  refine ⟨?_, ?_, ?_, ?_, ?_, hfree, k1, k2, k3, ?_⟩
  · simp only [logfs_append_copy]; split_ifs <;> rfl
  · simp only [logfs_append_copy]; split_ifs <;> rfl
  · simp only [logfs_append_copy]; split_ifs <;> rfl
  · simp only [logfs_append_copy]; split_ifs <;> rfl
  · simp only [logfs_append_copy]; split_ifs <;> rfl
  · simp only [pending] at hroom
    by_cases hlin : fs.write_head + len ≤ fs.write_limit
    · simp only [hlin, if_true, logfs_append_copy]
      refine ⟨trivial, fun i hi => ?_⟩
      simp only [memcpy]
      rw [if_pos (by omega)]
      congr 1; omega
    · simp only [hlin, if_false, logfs_append_copy]
      refine ⟨?_, fun i hi => ?_, fun i hi => ?_⟩
      · show fs.write_queue + (len - (fs.write_limit - fs.write_head))
          + fs.block_size * WCACHE_BLOCKS = fs.write_head + len
        omega
      · simp only [memcpy]
        split_ifs at hroom with hw
        · omega
        · rw [if_neg (by omega), if_pos (by omega)]
          congr 1; omega
      · simp only [memcpy]
        rw [if_pos (by omega)]
        congr 1; omega

/-- Witness of C15 after `drained_calls`: an append of 40 bytes forces no
flush and is split at the end of the buffer. -/
theorem logfs_append_without_flush_witness :
    0 < device_block small_device ∧
    appends_fit (logfs_open small_device 2) drained_calls = true ∧
    40 < free_space (run (logfs_open small_device 2) drained_calls) ∧
    ¬ ((run (logfs_open small_device 2) drained_calls).write_head + 40
        ≤ (run (logfs_open small_device 2) drained_calls).write_limit) ∧
    (logfs_append (run (logfs_open small_device 2) drained_calls) (fun i => i + 46) 40).1 = 0 ∧
    pending (logfs_append (run (logfs_open small_device 2) drained_calls)
        (fun i => i + 46) 40).2
      = pending (run (logfs_open small_device 2) drained_calls) + 40 :=
  ⟨by decide, by decide, by decide, by decide,
   (logfs_append_without_flush small_device 2 drained_calls _ (fun i => i + 46) 40
     (by decide) (by decide) rfl (by decide)).1,
   (logfs_append_without_flush small_device 2 drained_calls _ (fun i => i + 46) 40
     (by decide) (by decide) rfl (by decide)).2.2.2.2.2.2.1⟩

/-! ## The padding of the last block written -/

/-- C17, counterexample: in `stale_log` the second call that `logfs_flush`
makes, `logfs_flush_(write_queue, write_head)`, writes 11 bytes at a
block-aligned `device_limit = 64`, rounded up to 12; the byte written behind
the new `device_limit = 75` is the buffer byte that follows the range, byte 12
of the first append, not zero. -/
theorem flush_padding_not_zero :
    stale_log.write_head - stale_log.write_queue = 11 ∧
    (logfs_flush_ stale_log stale_log.mem stale_log.write_tail
      stale_log.write_limit).device_limit = 64 ∧
    11 % stale_log.block_size ≠ 0 ∧
    (logfs_flush_
      (logfs_flush_ stale_log stale_log.mem stale_log.write_tail stale_log.write_limit)
      stale_log.mem stale_log.write_queue stale_log.write_head).device_limit = 75 ∧
    (logfs_flush_
      (logfs_flush_ stale_log stale_log.mem stale_log.write_tail stale_log.write_limit)
      stale_log.mem stale_log.write_queue stale_log.write_head).device.data 75 = 12 ∧
    (logfs_flush stale_log).2.device.data 75 ≠ 0 := by
  decide

/-- The padding of the whole-block write, for a block-aligned `device_limit`:
the source bytes that follow the range when the source is block-aligned, and
zero bytes of the scratch buffer when it is not. -/
theorem flush_padding_aligned (fs : logfs) (src : Bytes) (start end_ j : Nat)
    (hB : 0 < fs.block_size) (hL : fs.device_limit % fs.block_size = 0)
    (hp : 0 < (end_ - start) % fs.block_size)
    (hj : j < fs.block_size - (end_ - start) % fs.block_size) :
    (logfs_flush_ fs src start end_).device.data (fs.device_limit + (end_ - start) + j)
      = if start % fs.block_size = 0 then src (end_ + j) else 0 := by
  have hne : start ≠ end_ := by
    intro h; subst h; simp at hp
  have hlt : start < end_ := by
    rcases Nat.lt_or_ge start end_ with h | h
    · exact h
    · have : end_ - start = 0 := by omega
      rw [this, Nat.zero_mod] at hp; omega
  have hB2 : 0 < fs.device.block := hB
  have hL2 : fs.device_limit % fs.device.block = 0 := hL
  have hpad := add_pad_mod (end_ - start) fs.device.block hB2
  by_cases hs : start % fs.block_size = 0
  · simp only [hs, if_true]
    have e : logfs_flush_ fs src start end_ = logfs_flush_write fs src start end_ := by
      simp [logfs_flush_, logfs_flush_fuel, logfs_flush_body, logfs_flush_rest, hne, hL, hs]
    rw [e]
    simp only [logfs_flush_write, logfs.block_size, device_block] at hp hj ⊢
    rw [if_pos hp, device_write_data _ _ _ _ _ hL2 hpad]
    simp only [memcpy]
    rw [if_pos (by omega)]
    congr 1; omega
  · simp only [hs, if_false]
    have e : logfs_flush_ fs src start end_ = logfs_flush_write fs
        (memcpy (memset fresh 0 0 (fs.block_size * WCACHE_BLOCKS)) 0 src start (end_ - start))
        0 (0 + (end_ - start)) := by
      have hn1 : ¬ (0 = end_ - start) := by omega
      simp [logfs_flush_, logfs_flush_fuel, logfs_flush_body, logfs_flush_rest, hne, hL, hs,
        Nat.pos_of_ne_zero hs, hn1]
    rw [e]
    simp only [logfs_flush_write, logfs.block_size, device_block, Nat.zero_add, Nat.sub_zero]
      at hp hj ⊢
    rw [if_pos hp, device_write_data _ _ _ _ _ hL2 hpad]
    simp only [memcpy, memset, fresh]
    rw [if_pos (by omega), if_neg (by omega)]
    split_ifs <;> rfl

/-- C17, amended: with a positive block size and a range `start ≤ end` no
longer than the write buffer, let `s1` be the source position after the merge
step (`start` moved on by `block_size - slack` when `device_limit` is not
block-aligned).  When the final write of `s1 .. end` has a length that is not
a multiple of the block size, the bytes written from the new `device_limit` up
to the next block boundary are the source bytes that follow `end` if the write
is made directly from the source (`s1` block-aligned), and zero if it is made
from the scratch copy. -/
theorem logfs_flush__padding (fs : logfs) (src : Bytes) (start end_ s1 j : Nat)
    (hB : 0 < fs.block_size) (_hse : start ≤ end_)
    (_hC : end_ - start ≤ fs.block_size * WCACHE_BLOCKS)
    (hs1 : s1 = if fs.device_limit % fs.block_size > 0
      then start + (fs.block_size - fs.device_limit % fs.block_size) else start)
    (hle : s1 ≤ end_) (hp : 0 < (end_ - s1) % fs.block_size)
    (hj : j < fs.block_size - (end_ - s1) % fs.block_size) :
    (logfs_flush_ fs src start end_).device.data (fs.device_limit + (end_ - start) + j)
      = if s1 % fs.block_size = 0 then src (end_ + j) else 0 := by
  have hlt : fs.device_limit % fs.block_size < fs.block_size := Nat.mod_lt _ hB
  by_cases hd : fs.device_limit % fs.block_size > 0
  · rw [if_pos hd] at hs1
    have hne : start ≠ end_ := by omega
    have hne1 : s1 ≠ end_ := by
      intro h; rw [h, Nat.sub_self, Nat.zero_mod] at hp; omega
    have hfit : ¬ (start + (fs.block_size - fs.device_limit % fs.block_size) > end_) := by
      omega
    obtain ⟨f2, hf2⟩ : ∃ f2 : logfs, f2 = { fs with
        device := logfs_flush_merge fs src start,
        device_limit := fs.device_limit + (fs.block_size - fs.device_limit % fs.block_size) } :=
      ⟨_, rfl⟩
    have hb2 : f2.block_size = fs.block_size := by
      rw [hf2]; simp [logfs.block_size, device_block]
    have hl2 : f2.device_limit
        = fs.device_limit + (fs.block_size - fs.device_limit % fs.block_size) := by
      rw [hf2]
    have ha2 : f2.device_limit % f2.block_size = 0 := by
      rw [hb2, hl2]; exact add_pad_mod _ _ hB
    have e : logfs_flush_ fs src start end_ = logfs_flush_ f2 src s1 end_ := by
      have k1 := logfs_flush_fuel_enough fs src start end_ hB 0
      have k2 := logfs_flush_fuel_enough f2 src s1 end_ (by rw [hb2]; exact hB) 0
      have k3 : logfs_flush_fuel (0 + 2) fs src start end_
          = logfs_flush_rest (logfs_flush_fuel 1) f2 src s1 end_ := by
        rw [hf2, hs1]
        simp only [logfs_flush_fuel, logfs_flush_body, hne, hd, hfit, if_true, if_false]
      have k4 : logfs_flush_fuel (0 + 2) f2 src s1 end_
          = logfs_flush_rest (logfs_flush_fuel 1) f2 src s1 end_ := by
        simp only [logfs_flush_fuel, logfs_flush_body, hne1, ha2, lt_irrefl, if_false]
      rw [k3] at k1
      rw [k4, k1] at k2
      exact Option.some.inj k2
    rw [e]
    have := flush_padding_aligned f2 src s1 end_ j (by rw [hb2]; exact hB) ha2
      (by rw [hb2]; exact hp) (by rw [hb2]; exact hj)
    rw [hb2, hl2] at this
    rw [← this]
    congr 1; omega
  · rw [if_neg hd] at hs1
    subst hs1
    exact flush_padding_aligned fs src s1 end_ j hB (by omega) hp hj

/-- Witness of the amended C17 on `demo_state`: the flush of the addresses 10
to 29 merges two bytes, writes the other 17 directly from address 12 and pads
with the buffer byte of address 29, which is 129. -/
theorem logfs_flush__padding_witness :
    0 < demo_state.block_size ∧ 10 ≤ 29 ∧ 29 - 10 ≤ demo_state.block_size * WCACHE_BLOCKS ∧
    12 = (if demo_state.device_limit % demo_state.block_size > 0
      then 10 + (demo_state.block_size - demo_state.device_limit % demo_state.block_size)
      else 10) ∧
    12 ≤ 29 ∧ 0 < (29 - 12) % demo_state.block_size ∧
    0 < demo_state.block_size - (29 - 12) % demo_state.block_size ∧
    (logfs_flush_ demo_state demo_state.mem 10 29).device.data
        (demo_state.device_limit + (29 - 10) + 0) = 129 :=
  ⟨by decide, by decide, by decide, by decide, by decide, by decide, by decide,
   (logfs_flush__padding demo_state demo_state.mem 10 29 12 0 (by decide) (by decide)
     (by decide) (by decide) (by decide) (by decide) (by decide)).trans (by decide)⟩

/-! ## Reads served from the cache -/

/-- C16, counterexample: in `outgrown_log` the window of the read cache is
`0 .. 6`, so `logfs_read(0, 6)` is served without a refill; the device has 4
bytes, and the call returns -1 and copies nothing. -/
theorem cached_read_beyond_device_fails :
    outgrown_log.read_start_addr ≤ 0 ∧ 0 + 6 ≤ outgrown_log.read_end_addr ∧
    (logfs_read outgrown_log (fun _ => 99) 0 6).1 = some (-1) ∧
    (logfs_read outgrown_log (fun _ => 99) 0 6).1 ≠ some 0 ∧
    (logfs_read outgrown_log (fun _ => 99) 0 6).2.2 0 = 99 := by
  decide

theorem open_cache (dev : device) (k : Nat) : CacheInv (logfs_open dev k) := by
  refine ⟨fun j h => ?_, Nat.le_refl _, by simp [logfs_open, U64]⟩
  simp [logfs_open] at h

/-- A flush round keeps the cache coherent: it changes no device byte below
`device_limit`. -/
theorem drained_cache {fs r : logfs} (h : Drained fs r) (hc : CacheInv fs) : CacheInv r := by
  obtain ⟨c1, c2, c3⟩ := hc
  refine ⟨fun j hj => ?_, ?_, ?_⟩
  · rw [h.read_start_addr, h.read_end_addr] at hj
    rw [h.read_queue, h.read_start_addr, h.old _ (by omega)]
    exact c1 j hj
  · rw [h.read_end_addr, h.limit]; omega
  · rw [h.read_end_addr]; exact c3

theorem append_copy_cache (fs : logfs) (buf : Bytes) (len : Nat) (hc : CacheInv fs) :
    CacheInv (logfs_append_copy fs buf len).2 := by
  obtain ⟨c1, c2, c3⟩ := hc
  simp only [logfs_append_copy]
  split_ifs <;> exact ⟨c1, c2, c3⟩

/-- A refill for a read that fits the read cache leaves the cache coherent. -/
theorem refill_cache (fs : logfs) (off len : Nat) (hB : 0 < fs.block_size)
    (hR : fs.block_size * RCACHE_BLOCKS < U64)
    (hfit : off % fs.block_size + len ≤ fs.block_size * RCACHE_BLOCKS) :
    CacheInv (logfs_read_refill fs off len) := by
  have hd := reader_function_drained fs hB
  have hb := drained_block_size hd
  simp only [logfs_read_refill]
  generalize reader_function fs = r at *
  rw [← hb] at hB hR hfit
  simp only [logfs.block_size, device_block] at *
  generalize hBv : r.device.block = B at *
  have hm : off % B ≤ off := Nat.mod_le _ _
  have hm2 : off % B < B := Nat.mod_lt _ hB
  have e1 : (len + off % B) % U64 = len + off % B := Nat.mod_eq_of_lt (by omega)
  rw [e1]
  have hx2 : (len + off % B) % B < B := Nat.mod_lt _ hB
  have hx3 : (len + off % B) % B ≤ len + off % B := Nat.mod_le _ _
  generalize hN : (if (len + off % B) % B > 0 then (len + off % B - (len + off % B) % B + B) % U64
      else len + off % B) = N
  have hN3 : N % B = 0 := by
    rw [← hN]; split_ifs with hp
    · have hr := round_up_le (len + off % B) B RCACHE_BLOCKS hB (by omega) hp
      have e2 : (len + off % B - (len + off % B) % B + B) % U64
          = len + off % B - (len + off % B) % B + B := Nat.mod_eq_of_lt (by omega)
      rw [e2, Nat.add_mod_right]
      exact sub_mod_self _ _
    · omega
  have hrfa : (off - off % B) % B = 0 := sub_mod_self off B
  have hrd : (device_read r.device r.read_queue 0 (off - off % B) N).2
      = memcpy r.read_queue 0 r.device.data (off - off % B) N :=
    device_read_data _ _ _ _ _ (by rw [hBv]; exact hrfa) (by rw [hBv]; exact hN3)
  have hmod : (off - off % B + N) % U64 ≤ off - off % B + N := Nat.mod_le _ _
  have hmod2 : (off - off % B + N) % U64 < U64 := Nat.mod_lt _ (by simp [U64])
  refine ⟨fun j hj => ?_, ?_, ?_⟩
  · simp only [] at hj ⊢
    rw [hrd]
    simp only [memcpy]
    have hj2 : j < N := by split_ifs at hj <;> omega
    rw [if_pos (by omega)]
    congr 1
  · simp only []; split_ifs <;> omega
  · simp only []; split_ifs <;> omega

theorem reads_fit_cons (B : Nat) (c : call) (cs : List call)
    (h : reads_fit B (c :: cs) = true) :
    reads_fit B [c] = true ∧ reads_fit B cs = true := by
  cases c <;> simp_all [reads_fit]

theorem step_cache (fs : logfs) (c : call) (hB : 0 < fs.block_size)
    (hR : fs.block_size * RCACHE_BLOCKS < U64) (hc : CacheInv fs)
    (hr : reads_fit fs.block_size [c] = true) : CacheInv (step fs c) := by
  cases c with
  | append buf len =>
    simp only [step, logfs_append_eq]
    split_ifs
    · exact append_copy_cache _ _ _ (drained_cache (reader_function_drained fs hB) hc)
    · exact append_copy_cache _ _ _ hc
  | flush => exact drained_cache (logfs_flush_drained fs hB) hc
  | read buf off len =>
    simp only [reads_fit, Bool.and_true, decide_eq_true_eq] at hr
    simp only [step, logfs_read_state]
    split_ifs
    · exact refill_cache fs off len hB hR hr
    · exact hc

theorem run_cache (cs : List call) (fs : logfs) (hB : 0 < fs.block_size)
    (hR : fs.block_size * RCACHE_BLOCKS < U64) (hc : CacheInv fs)
    (hr : reads_fit fs.block_size cs = true) : CacheInv (run fs cs) := by
  induction cs generalizing fs with
  | nil => exact hc
  | cons c cs ih =>
    obtain ⟨h1, h2⟩ := reads_fit_cons _ c cs hr
    have hb := step_block_size fs c hB
    exact ih (step fs c) (by rw [hb]; exact hB) (by rw [hb]; exact hR)
      (step_cache fs c hB hR hc h1) (by rw [hb]; exact h2)

/-- A read inside the window of a coherent cache, and inside the device,
returns 0, leaves the state alone and hands out the device bytes. -/
theorem read_hit (fs : logfs) (buf : Bytes) (off len : Nat) (hc : CacheInv fs)
    (h1 : fs.read_start_addr ≤ off) (h2 : off + len ≤ fs.read_end_addr)
    (hsz : off + len ≤ device_size fs.device) :
    logfs_read fs buf off len = (some 0, fs, memcpy buf 0 fs.read_queue (off - fs.read_start_addr) len) ∧
    ∀ i, i < len → memcpy buf 0 fs.read_queue (off - fs.read_start_addr) len i
      = fs.device.data (off + i) := by
  obtain ⟨c1, c2, c3⟩ := hc
  have hmod : (off + len) % U64 = off + len := Nat.mod_eq_of_lt (by omega)
  have hmod2 : (len + off) % U64 = off + len := by rw [Nat.add_comm]; exact hmod
  have hwin : (fs.read_end_addr + U64 - fs.read_start_addr) % U64
      = fs.read_end_addr - fs.read_start_addr := by
    rw [show fs.read_end_addr + U64 - fs.read_start_addr
      = fs.read_end_addr - fs.read_start_addr + U64 by omega, Nat.add_mod_right]
    exact Nat.mod_eq_of_lt (by omega)
  refine ⟨?_, fun i hi => ?_⟩
  · have hnomiss : ¬ ((off + len) % U64 > fs.read_end_addr ∨ off < fs.read_start_addr) := by
      rw [hmod]; omega
    have hsize : ¬ ((len + off) % U64 > device_size fs.device) := by
      rw [hmod2]; omega
    have hin : off ≥ fs.read_start_addr ∧
        len ≤ (fs.read_end_addr + U64 - fs.read_start_addr) % U64 := by
      rw [hwin]; exact ⟨h1, by omega⟩
    simp only [logfs_read, hnomiss, hsize, hin, if_false, if_true, and_self]
  · simp only [memcpy]
    rw [if_pos (by omega), c1 _ (by omega)]
    congr 1; omega

/-- C16, amended: in every state reached from a freshly opened log with a
positive block size by appends of at most `C = block_size * 32` bytes, flushes
and reads that fit the read cache (of less than `2 ^ 64` bytes), a
`logfs_read(off, len)` inside the window of the cache (`read_start_addr ≤ off`
and `off + len ≤ read_end_addr`) and inside the device (`off + len` at most
the device size) returns 0, leaves the state alone and copies the current
device bytes of `off .. off + len`; no append and no flush made after the
refill has changed them.  When every append of the run was shorter than `C`,
they are the bytes appended at these offsets of the log. -/
theorem cached_read_coherent (dev : device) (k : Nat) (cs : List call) (fs : logfs)
    (buf : Bytes) (off len i : Nat) (hB : 0 < device_block dev)
    (hR : device_block dev * RCACHE_BLOCKS < U64)
    (_hw : appends_within (device_block dev * WCACHE_BLOCKS) cs = true)
    (hr : reads_fit (device_block dev) cs = true)
    (hfs : fs = run (logfs_open dev k) cs)
    (h1 : fs.read_start_addr ≤ off) (h2 : off + len ≤ fs.read_end_addr)
    (hsz : off + len ≤ device_size dev) (hi : i < len) :
    (logfs_read fs buf off len).1 = some 0 ∧
    (logfs_read fs buf off len).2.1 = fs ∧
    (logfs_read fs buf off len).2.2 i = fs.device.data (off + i) ∧
    (appends_below (device_block dev * WCACHE_BLOCKS) cs = true →
      fs.device.data (off + i) = (log_bytes cs).getD (off + i) 0) := by
  subst hfs
  have hc := run_cache cs (logfs_open dev k) hB hR (open_cache dev k) hr
  have hs := run_device_size cs (logfs_open dev k) hB
  obtain ⟨e1, e2⟩ := read_hit _ buf off len hc h1 h2 (by
    simp only [device_size] at hsz ⊢; rw [hs]; exact hsz)
  rw [e1]
  refine ⟨rfl, rfl, e2 i hi, fun ha => ?_⟩
  have hinv := run_inv cs (logfs_open dev k) fresh 0 (open_inv dev k hB) ha
  have := hinv.durable (off + i) (by have := hc.end_le; omega)
  simpa using this

/-- Witness of the amended C16 on `cached_calls`: the window `0 .. 6` was
filled before the last append and flush, and a read of the bytes 1 to 5 is
served from it. -/
theorem cached_read_coherent_witness :
    0 < device_block demo_device ∧ device_block demo_device * RCACHE_BLOCKS < U64 ∧
    appends_within (device_block demo_device * WCACHE_BLOCKS) cached_calls = true ∧
    reads_fit (device_block demo_device) cached_calls = true ∧
    (run (logfs_open demo_device 2) cached_calls).read_start_addr ≤ 1 ∧
    1 + 4 ≤ (run (logfs_open demo_device 2) cached_calls).read_end_addr ∧
    1 + 4 ≤ device_size demo_device ∧
    appends_below (device_block demo_device * WCACHE_BLOCKS) cached_calls = true ∧
    (logfs_read (run (logfs_open demo_device 2) cached_calls) fresh 1 4).1 = some 0 ∧
    (logfs_read (run (logfs_open demo_device 2) cached_calls) fresh 1 4).2.2 2
      = (run (logfs_open demo_device 2) cached_calls).device.data (1 + 2) ∧
    (run (logfs_open demo_device 2) cached_calls).device.data (1 + 2)
      = (log_bytes cached_calls).getD (1 + 2) 0 :=
  ⟨by decide, by decide, by decide, by decide, by decide, by decide, by decide, by decide,
   (cached_read_coherent demo_device 2 cached_calls _ fresh 1 4 2 (by decide) (by decide)
     (by decide) (by decide) rfl (by decide) (by decide) (by decide) (by decide)).1,
   (cached_read_coherent demo_device 2 cached_calls _ fresh 1 4 2 (by decide) (by decide)
     (by decide) (by decide) rfl (by decide) (by decide) (by decide) (by decide)).2.2.1,
   (cached_read_coherent demo_device 2 cached_calls _ fresh 1 4 2 (by decide) (by decide)
     (by decide) (by decide) rfl (by decide) (by decide) (by decide) (by decide)).2.2.2
     (by decide)⟩

/-! ## The last pass of the worker -/

/-- C14, evaluation at the failing interleaving: on `demo_device` the caller
appends one byte, which returns, and calls `logfs_close`; the worker gets its
first turn when `should_exit` is set, finds the test of its outer loop false
and ends without a call of `logfs_flush`: the byte is still pending and
`device_limit` is 0 when the worker has ended and has been joined.  In the
interleaving in which the worker is waiting before the first call, the last
pass is made and the byte is on the device. -/
theorem close_skips_final_flush :
    (interleave (boot demo_device 2 one_byte_then_close) late_worker).worker
      = worker_pc.exited ∧
    (interleave (boot demo_device 2 one_byte_then_close) late_worker).returned = 1 ∧
    (interleave (boot demo_device 2 one_byte_then_close) late_worker).todo.length = 0 ∧
    pending (interleave (boot demo_device 2 one_byte_then_close) late_worker).fs = 1 ∧
    (interleave (boot demo_device 2 one_byte_then_close) late_worker).fs.write_tail
      ≠ (interleave (boot demo_device 2 one_byte_then_close) late_worker).fs.write_head ∧
    (interleave (boot demo_device 2 one_byte_then_close) late_worker).fs.device_limit = 0 ∧
    (interleave (boot demo_device 2 one_byte_then_close) late_worker).fs.device.data 0
      = demo_device.data 0 ∧
    (interleave (boot demo_device 2 one_byte_then_close) early_worker).worker
      = worker_pc.exited ∧
    pending (interleave (boot demo_device 2 one_byte_then_close) early_worker).fs = 0 ∧
    (interleave (boot demo_device 2 one_byte_then_close) early_worker).fs.device_limit = 1 := by
  decide

end LogFS
